import Mathlib

/-!
Verification of the `validates` repository's core: the `Path` addressing
scheme (src/tree/path.go) and the `ErrorNode` error tree, together with the
`Is` assertion-layer state (current-path cursor, error counter).

Paths are modelled as lists of characters (Go strings over ASCII), and every
operation is a direct transcription of the Go source: `strings.Split`,
`strings.Join`, `strings.LastIndex`, `strings.Count`, slicing and
`strconv.Atoi` are each given an explicit model.  Go's machine integers are
modelled as unbounded `Int` (no claim depends on overflow).
-/

namespace Validates

/-- The path separator character, Go `PathSeparator = "/"`. -/
def sepChar : Char := '/'

/-- Model of Go `strings.Split(s, "/")` for the one-character separator:
splitting the empty string yields `[""]`, and every separator occurrence
starts a new segment. -/
def splitSep : List Char → List (List Char)
  | [] => [[]]
  | c :: rest =>
    if c = sepChar then [] :: splitSep rest
    else
      match splitSep rest with
      | [] => [[c]]
      | h :: t => (c :: h) :: t

/-- Model of Go `strings.Join(parts, "/")`. -/
def joinSep : List (List Char) → List Char
  | [] => []
  | [x] => x
  | x :: y :: rest => x ++ sepChar :: joinSep (y :: rest)

/-- Model of Go `strings.LastIndex(s, c)` for a one-character needle:
the byte index of the last occurrence, or `-1` when absent. -/
def lastIndexChar (c : Char) : List Char → Int
  | [] => -1
  | a :: rest =>
    if lastIndexChar c rest ≥ 0 then lastIndexChar c rest + 1
    else if a = c then 0 else -1

/-- Model of the Go slice expression `s[a:b]` (total; Go panics when the
bounds are inverted, which is unreachable in the functions below). -/
def goSlice (s : List Char) (a b : Nat) : List Char :=
  (s.take b).drop a

/-- Decimal digit characters, used to model `fmt.Sprintf("%d", ...)`. -/
def digitChar : Nat → Char
  | 0 => '0'
  | 1 => '1'
  | 2 => '2'
  | 3 => '3'
  | 4 => '4'
  | 5 => '5'
  | 6 => '6'
  | 7 => '7'
  | 8 => '8'
  | _ + 9 => '9'

/-- Fuelled decimal rendering of a natural number (fuel `n + 1` always
suffices, since the digit count of `n` is at most `n + 1`). -/
def natCharsAux : Nat → Nat → List Char
  | 0, _ => []
  | fuel + 1, n =>
    if n < 10 then [digitChar n]
    else natCharsAux fuel (n / 10) ++ [digitChar (n % 10)]

/-- Decimal rendering of a natural number, e.g. `natChars 10 = "10"`. -/
def natChars (n : Nat) : List Char :=
  natCharsAux (n + 1) n

/-- Model of Go `fmt.Sprintf("%d", i)` for a (signed, unbounded) integer. -/
def intChars (i : Int) : List Char :=
  if i < 0 then '-' :: natChars (-i).toNat else natChars i.toNat

/-- Is `c` a decimal digit? -/
def isDigitChar (c : Char) : Bool :=
  '0' ≤ c && c ≤ '9'

/-- Numeric value of a digit list (most significant first). -/
def digitsToNat (s : List Char) : Nat :=
  s.foldl (fun a c => a * 10 + (c.toNat - '0'.toNat)) 0

/-- Model of Go `strconv.Atoi` with the error dropped, exactly as
`Path.Index` drops it: a well-formed optionally-signed decimal string parses
to its value, and any malformed string yields `0` (the `int` zero value).
Overflow does not arise because integers are unbounded in this model. -/
def atoi (s : List Char) : Int :=
  match s with
  | '-' :: rest =>
    if rest ≠ [] ∧ rest.all isDigitChar then -(digitsToNat rest : Int) else 0
  | '+' :: rest =>
    if rest ≠ [] ∧ rest.all isDigitChar then (digitsToNat rest : Int) else 0
  | _ =>
    if s ≠ [] ∧ s.all isDigitChar then (digitsToNat s : Int) else 0

/-! ### Path operations, transcribed from src/tree/path.go -/

/-- Go `NewPath()`: the root path `/`. -/
def newPath : List Char := [sepChar]

/-- Go `Path.IsEqual`: exact string equality. -/
def pathIsEqual (p q : List Char) : Bool :=
  decide (p = q)

/-- Go `Path.IsRoot`: the path is exactly the separator. -/
def isRoot (p : List Char) : Bool :=
  decide (p = [sepChar])

/-- Go `Path.IsAbsolute`: `strings.HasPrefix(p, "/")`. -/
def isAbsolute (p : List Char) : Bool :=
  match p with
  | [] => false
  | c :: _ => decide (c = sepChar)

/-- The last separator-delimited segment of the path,
Go `parts[len(parts)-1]` after `strings.Split`. -/
def lastSegment (p : List Char) : List Char :=
  (splitSep p).getLastD []

/-- Go `Path.IsArrayElement`: the last segment contains `[`. -/
def isArrayElement (p : List Char) : Bool :=
  if isRoot p then false
  else (lastSegment p).contains '['

/-- Go `Path.Up`: root is a fixed point; an array element is truncated at
the last `[` of the whole string; otherwise the last segment is dropped and
the remainder re-joined (with the leading separator restored when the path
is absolute). -/
def up (p : List Char) : List Char :=
  if isRoot p then p
  else if isArrayElement p then
    goSlice p 0 (lastIndexChar '[' p).toNat
  else
    let parts := splitSep p
    if isAbsolute p then
      sepChar :: joinSep ((parts.drop 1).dropLast)
    else
      joinSep parts.dropLast

/-- Go `isValidFieldName`: no `[`, `]` or separator characters
(`strings.ContainsAny(fieldName, "[]/")` negated). -/
def isValidFieldName (n : List Char) : Bool :=
  !(n.any fun c => c = '[' || c = ']' || c = sepChar)

/-- The successful branch of Go `Path.DownField`: append the name, with no
doubled separator at root.  The Go function panics first when the name is
invalid; `downField` below models that split. -/
def downFieldRaw (p : List Char) (n : List Char) : List Char :=
  if isAbsolute p && isRoot p then p ++ n
  else p ++ sepChar :: n

/-- Go `Path.DownField`: `none` models the `panic` on an invalid field
name, otherwise the appended path is returned. -/
def downField (p : List Char) (n : List Char) : Option (List Char) :=
  if isValidFieldName n then some (downFieldRaw p n) else none

/-- Go `Path.DownIndex`: append `[i]` textually, no separator. -/
def downIndex (p : List Char) (i : Int) : List Char :=
  p ++ '[' :: (intChars i ++ [']'])

/-- Go `Path.Index`: `-1` when not an array element; otherwise slice the
*whole* string `p` using offsets computed inside the *last segment* (this
mismatch is exactly what the source does) and `Atoi` the result. -/
def index (p : List Char) : Int :=
  if !(isArrayElement p) then -1
  else
    let lastPart := lastSegment p
    let startOfIndex := lastIndexChar '[' lastPart + 2
    let endOfIndex := lastIndexChar ']' lastPart + 1
    atoi (goSlice p startOfIndex.toNat endOfIndex.toNat)

/-- Go `Path.FieldName`: empty at root or on an array element, otherwise
the last segment. -/
def fieldName (p : List Char) : List Char :=
  if isRoot p || isArrayElement p then [] else lastSegment p

/-- Go `Path.Depth`: `0` at root, else separator count minus one for an
absolute path's leading separator, plus the count of `[` markers. -/
def depth (p : List Char) : Int :=
  if isRoot p then 0
  else (p.count sepChar : Int) - (if isAbsolute p then 1 else 0) + (p.count '[' : Int)

/-- `up` applied `n` times. -/
def upN : Nat → List Char → List Char
  | 0, p => p
  | n + 1, p => upN n (up p)

/-! ### Basic facts about the string helpers -/

theorem splitSep_ne_nil (p : List Char) : splitSep p ≠ [] := by
  induction p with
  | nil => simp [splitSep]
  | cons c rest ih =>
    simp only [splitSep]
    split
    · simp
    · split
      · simp
      · simp

theorem joinSep_splitSep (p : List Char) : joinSep (splitSep p) = p := by
  induction p with
  | nil => rfl
  | cons c rest ih =>
    simp only [splitSep]
    by_cases hc : c = sepChar
    · rw [if_pos hc]
      obtain ⟨h, t, hht⟩ : ∃ h t, splitSep rest = h :: t := by
        cases hsp : splitSep rest with
        | nil => exact absurd hsp (splitSep_ne_nil rest)
        | cons h t => exact ⟨h, t, rfl⟩
      rw [hht]
      rw [hht] at ih
      cases t with
      | nil => simp only [joinSep] at ih ⊢; simp [ih, hc]
      | cons y t2 => simp only [joinSep] at ih ⊢; simp [ih, hc]
    · rw [if_neg hc]
      obtain ⟨h, t, hht⟩ : ∃ h t, splitSep rest = h :: t := by
        cases hsp : splitSep rest with
        | nil => exact absurd hsp (splitSep_ne_nil rest)
        | cons h t => exact ⟨h, t, rfl⟩
      rw [hht]
      rw [hht] at ih
      cases t with
      | nil => simp only [joinSep] at ih ⊢; simp [ih]
      | cons y t2 => simp only [joinSep] at ih ⊢; simp [ih]

theorem mem_joinSep_of_mem {c : Char} {x : List Char} :
    ∀ {q : List (List Char)}, x ∈ q → c ∈ x → c ∈ joinSep q := by
  intro q
  induction q with
  | nil => intro h; exact absurd h (List.not_mem_nil x)
  | cons a t ih =>
    intro hx hc
    cases t with
    | nil =>
      simp only [List.mem_singleton] at hx
      subst hx
      simpa [joinSep] using hc
    | cons b t2 =>
      simp only [joinSep]
      rcases List.mem_cons.mp hx with h | h
      · subst h; exact List.mem_append_left _ hc
      · exact List.mem_append_right _ (List.mem_cons_of_mem _ (ih h hc))

theorem lastSegment_mem (p : List Char) : lastSegment p ∈ splitSep p := by
  unfold lastSegment
  have h := splitSep_ne_nil p
  rw [List.getLastD_eq_getLast? , List.getLast?_eq_getLast _ h]
  · exact List.getLast_mem h

theorem mem_of_isArrayElement {p : List Char} (h : isArrayElement p = true) :
    '[' ∈ p := by
  unfold isArrayElement at h
  split at h
  · exact absurd h (by simp)
  · have hmem : '[' ∈ lastSegment p := by
      simpa using h
    have := mem_joinSep_of_mem (lastSegment_mem p) hmem
    rwa [joinSep_splitSep] at this

theorem lastIndexChar_lt_length (c : Char) (s : List Char) :
    lastIndexChar c s < (s.length : Int) := by
  induction s with
  | nil => simp [lastIndexChar]
  | cons a rest ih =>
    simp only [lastIndexChar, List.length_cons]
    split
    · push_cast; omega
    · split <;> (push_cast; omega)

theorem lastIndexChar_nonneg {c : Char} {s : List Char} (h : c ∈ s) :
    0 ≤ lastIndexChar c s := by
  induction s with
  | nil => exact absurd h (List.not_mem_nil c)
  | cons a rest ih =>
    simp only [lastIndexChar]
    rcases List.mem_cons.mp h with h1 | h1
    · split
      · have := lastIndexChar_lt_length c rest; omega
      · rw [if_pos h1.symm]
    · have := ih h1
      rw [if_pos this]
      omega

theorem lastIndexChar_neg_of_not_mem {c : Char} {s : List Char} (h : c ∉ s) :
    lastIndexChar c s = -1 := by
  induction s with
  | nil => rfl
  | cons a rest ih =>
    simp only [List.mem_cons, not_or] at h
    simp only [lastIndexChar, ih h.2]
    have hac : ¬(a = c) := fun hh => h.1 hh.symm
    simp [hac]

theorem lastIndexChar_ge (c : Char) (s : List Char) : -1 ≤ lastIndexChar c s := by
  induction s with
  | nil => simp [lastIndexChar]
  | cons a rest ih =>
    simp only [lastIndexChar]
    split
    · omega
    · split <;> omega

theorem lastIndexChar_append (c : Char) (xs ys : List Char) :
    lastIndexChar c (xs ++ ys) =
      if lastIndexChar c ys ≥ 0 then (xs.length : Int) + lastIndexChar c ys
      else lastIndexChar c xs := by
  induction xs with
  | nil =>
    simp only [List.nil_append, List.length_nil, Nat.cast_zero, zero_add]
    by_cases hy : lastIndexChar c ys ≥ 0
    · rw [if_pos hy]
    · rw [if_neg hy]
      have := lastIndexChar_ge c ys
      simp only [lastIndexChar]
      omega
  | cons a xs ih =>
    have hstep : lastIndexChar c ((a :: xs) ++ ys) =
        if lastIndexChar c (xs ++ ys) ≥ 0 then lastIndexChar c (xs ++ ys) + 1
        else if a = c then 0 else -1 := rfl
    rw [hstep, ih]
    by_cases hy : lastIndexChar c ys ≥ 0
    · simp only [if_pos hy]
      have h0 : (0 : Int) ≤ (xs.length : Int) := Int.ofNat_nonneg _
      rw [if_pos (by omega : (xs.length : Int) + lastIndexChar c ys ≥ 0)]
      simp only [List.length_cons]
      push_cast
      ring
    · simp only [if_neg hy]
      rfl

theorem joinSep_concat : ∀ (xs : List (List Char)) (x : List Char), xs ≠ [] →
    joinSep (xs ++ [x]) = joinSep xs ++ sepChar :: x
  | [], x, h => absurd rfl h
  | [a], x, _ => by simp [joinSep]
  | a :: b :: t2, x, _ => by
    have h2 := joinSep_concat (b :: t2) x (by simp)
    have h3 : joinSep ((a :: b :: t2) ++ [x]) =
        a ++ sepChar :: joinSep ((b :: t2) ++ [x]) := rfl
    have h4 : joinSep (a :: b :: t2) = a ++ sepChar :: joinSep (b :: t2) := rfl
    rw [h3, h2, h4]
    simp

theorem splitSep_sep_cons (t : List Char) :
    splitSep (sepChar :: t) = [] :: splitSep t := by
  simp [splitSep]

/-- Splitting a string that contains an explicit separator splits around it. -/
theorem splitSep_append_sep (xs ys : List Char) :
    splitSep (xs ++ sepChar :: ys) = splitSep xs ++ splitSep ys := by
  induction xs with
  | nil => simp [splitSep_sep_cons, splitSep]
  | cons a xs ih =>
    by_cases ha : a = sepChar
    · subst ha
      simp only [List.cons_append, splitSep_sep_cons, ih, List.cons_append]
    · obtain ⟨h, t, hht⟩ : ∃ h t, splitSep xs = h :: t := by
        cases hsp : splitSep xs with
        | nil => exact absurd hsp (splitSep_ne_nil xs)
        | cons h t => exact ⟨h, t, rfl⟩
      have ih2 : splitSep (xs ++ sepChar :: ys) = h :: (t ++ splitSep ys) := by
        rw [ih, hht]; simp
      show splitSep (a :: (xs ++ sepChar :: ys)) = splitSep (a :: xs) ++ splitSep ys
      simp only [splitSep, if_neg ha, ih2, hht]
      simp

/-- A separator-free string splits into itself alone. -/
theorem splitSep_sepfree {ys : List Char} (h : sepChar ∉ ys) :
    splitSep ys = [ys] := by
  induction ys with
  | nil => rfl
  | cons a t ih =>
    simp only [List.mem_cons, not_or] at h
    have ha : ¬(a = sepChar) := fun hh => h.1 hh.symm
    simp only [splitSep, if_neg ha, ih h.2]

/-- Every segment produced by `splitSep` is separator-free. -/
theorem mem_splitSep_sepfree : ∀ {p x : List Char}, x ∈ splitSep p → sepChar ∉ x := by
  intro p
  induction p with
  | nil =>
    intro x hx
    simp only [splitSep, List.mem_singleton] at hx
    subst hx
    simp
  | cons c rest ih =>
    intro x hx
    by_cases hc : c = sepChar
    · rw [hc, splitSep_sep_cons] at hx
      rcases List.mem_cons.mp hx with h1 | h1
      · subst h1; simp
      · exact ih h1
    · simp only [splitSep, if_neg hc] at hx
      obtain ⟨h, t, hht⟩ : ∃ h t, splitSep rest = h :: t := by
        cases hsp : splitSep rest with
        | nil => exact absurd hsp (splitSep_ne_nil rest)
        | cons h t => exact ⟨h, t, rfl⟩
      rw [hht] at hx
      rcases List.mem_cons.mp hx with h1 | h1
      · subst h1
        intro hmem
        rcases List.mem_cons.mp hmem with h2 | h2
        · exact hc h2.symm
        · exact ih (hht ▸ List.mem_cons_self h t) h2
      · exact ih (hht ▸ List.mem_cons_of_mem h h1)

/-- Joining separator-free segments and re-splitting recovers them. -/
theorem splitSep_joinSep_sepfree :
    ∀ {q : List (List Char)}, q ≠ [] → (∀ x ∈ q, sepChar ∉ x) →
      splitSep (joinSep q) = q
  | [], h, _ => absurd rfl h
  | [x], _, hall => by
    simp only [joinSep]
    exact splitSep_sepfree (hall x (List.mem_singleton_self x))
  | x :: y :: t, _, hall => by
    have h2 : splitSep (joinSep (y :: t)) = y :: t :=
      splitSep_joinSep_sepfree (by simp)
        (fun z hz => hall z (List.mem_cons_of_mem x hz))
    have h3 : joinSep (x :: y :: t) = x ++ sepChar :: joinSep (y :: t) := rfl
    rw [h3, splitSep_append_sep, h2,
      splitSep_sepfree (hall x (List.mem_cons_self x (y :: t)))]
    simp

/-- Appending a separator-free suffix extends only the last segment. -/
theorem splitSep_append_sepfree {p ys : List Char} (hys : sepChar ∉ ys)
    {mid : List (List Char)} {last : List Char}
    (hsplit : splitSep p = mid ++ [last]) :
    splitSep (p ++ ys) = mid ++ [last ++ ys] := by
  have hp : p = joinSep (mid ++ [last]) := by
    rw [← hsplit, joinSep_splitSep]
  have hlastfree : sepChar ∉ last :=
    mem_splitSep_sepfree (hsplit ▸ (List.mem_append_right mid (List.mem_singleton_self last)))
  cases mid with
  | nil =>
    have : p = last := by simpa [joinSep] using hp
    subst this
    simpa using splitSep_sepfree (by
      intro hmem
      rcases List.mem_append.mp hmem with h | h
      · exact hlastfree h
      · exact hys h)
  | cons m0 ms =>
    have hjc : joinSep ((m0 :: ms) ++ [last]) = joinSep (m0 :: ms) ++ sepChar :: last :=
      joinSep_concat (m0 :: ms) last (by simp)
    have hmidfree : ∀ x ∈ m0 :: ms, sepChar ∉ x := by
      intro x hx
      exact mem_splitSep_sepfree
        (hsplit ▸ (List.mem_append_left [last] hx))
    have hxs : p ++ ys = joinSep (m0 :: ms) ++ sepChar :: (last ++ ys) := by
      rw [hp, hjc, List.append_assoc]
      simp
    rw [hxs, splitSep_append_sep, splitSep_joinSep_sepfree (by simp) hmidfree,
      splitSep_sepfree (by
        intro hmem
        rcases List.mem_append.mp hmem with h | h
        · exact hlastfree h
        · exact hys h)]

theorem splitSep_concat_decomp (p : List Char) :
    ∃ mid last, splitSep p = mid ++ [last] := by
  rcases List.eq_nil_or_concat (splitSep p) with h | ⟨mid, last, h⟩
  · exact absurd h (splitSep_ne_nil p)
  · exact ⟨mid, last, by rw [h, List.concat_eq_append]⟩

/-- `lastSegment` after appending a separator-free suffix. -/
theorem lastSegment_append_sepfree (p : List Char) {ys : List Char}
    (hys : sepChar ∉ ys) :
    lastSegment (p ++ ys) = lastSegment p ++ ys := by
  obtain ⟨mid, last, hsplit⟩ := splitSep_concat_decomp p
  unfold lastSegment
  rw [hsplit, splitSep_append_sepfree hys hsplit]
  simp [List.getLastD_concat]

/-! ### `Up` strictly shortens every non-root, non-empty path -/

theorem up_length_lt {p : List Char} (hroot : isRoot p = false) (hne : p ≠ []) :
    (up p).length < p.length := by
  by_cases harr : isArrayElement p = true
  · have hmem := mem_of_isArrayElement harr
    have h0 := lastIndexChar_nonneg hmem
    have h1 := lastIndexChar_lt_length '[' p
    have hup : up p = goSlice p 0 (lastIndexChar '[' p).toNat := by
      unfold up
      simp [hroot, harr]
    rw [hup]
    unfold goSlice
    simp only [List.drop_zero, List.length_take]
    omega
  · obtain ⟨mid, last, hsplit⟩ := splitSep_concat_decomp p
    have hp : p = joinSep (mid ++ [last]) := by rw [← hsplit, joinSep_splitSep]
    by_cases habs : isAbsolute p = true
    · obtain ⟨t, hpt⟩ : ∃ t, p = sepChar :: t := by
        cases p with
        | nil => exact absurd rfl hne
        | cons c rest =>
          have hc : c = sepChar := by
            unfold isAbsolute at habs
            simpa using habs
          exact ⟨rest, by rw [hc]⟩
      have hsp : splitSep p = [] :: splitSep t := by rw [hpt, splitSep_sep_cons]
      obtain ⟨mid2, last2, hsplit2⟩ := splitSep_concat_decomp t
      have hup : up p = sepChar :: joinSep ((splitSep t).dropLast) := by
        unfold up
        simp [hroot, harr, habs, hsp]
      rw [hsplit2, List.dropLast_concat] at hup
      have ht : t = joinSep (mid2 ++ [last2]) := by rw [← hsplit2, joinSep_splitSep]
      cases mid2 with
      | nil =>
        have ht2 : t = last2 := by simpa [joinSep] using ht
        have hlast : last2 ≠ [] := by
          intro h0
          have : isRoot p = true := by
            rw [hpt, ht2, h0]
            rfl
          rw [this] at hroot
          exact Bool.true_eq_false.mp hroot
        rw [hup]
        conv_rhs => rw [hpt, ht2]
        simp only [joinSep, List.length_cons, List.length_nil]
        have := List.length_pos.mpr hlast
        omega
      | cons m0 ms =>
        have hjc := joinSep_concat (m0 :: ms) last2 (by simp)
        rw [hup]
        conv_rhs => rw [hpt, ht, hjc]
        simp only [List.length_cons, List.length_append]
        omega
    · have habs2 : isAbsolute p = false := Bool.not_eq_true _ ▸ Bool.eq_false_iff.mpr habs
      have hup : up p = joinSep ((splitSep p).dropLast) := by
        unfold up
        simp [hroot, harr, habs]
      rw [hsplit, List.dropLast_concat] at hup
      cases mid with
      | nil =>
        have hp2 : p = last := by simpa [joinSep] using hp
        rw [hup]
        simp only [joinSep, List.length_nil]
        have : p ≠ [] := hne
        have := List.length_pos.mpr hne
        omega
      | cons m0 ms =>
        have hjc := joinSep_concat (m0 :: ms) last (by simp)
        rw [hup]
        conv_rhs => rw [hp, hjc]
        simp only [List.length_append, List.length_cons]
        omega

/-! ### The `EachComponent` part buffer -/

/-- Fuelled version of the part-collecting loop at the top of Go
`Path.EachComponent`: collect the path and every proper ancestor, leaf
first, stopping at root or the empty string. -/
def pathPartsF : Nat → List Char → List (List Char)
  | 0, _ => []
  | fuel + 1, p =>
    if isRoot p || decide (p = []) then [] else p :: pathPartsF fuel (up p)

/-- The part buffer built by Go `Path.EachComponent` (leaf-first order).
Fuel `p.length` always suffices because `up` strictly shortens the path;
`pathParts_eq` below gives the fuel-free unfolding. -/
def pathParts (p : List Char) : List (List Char) :=
  pathPartsF p.length p

theorem pathPartsF_stop {p : List Char}
    (h : (isRoot p || decide (p = [])) = true) :
    ∀ fuel, pathPartsF fuel p = [] := by
  intro fuel
  cases fuel with
  | zero => rfl
  | succ f => simp [pathPartsF, h]

theorem pathPartsF_congr : ∀ (f1 : Nat) {f2 : Nat} {p : List Char},
    p.length ≤ f1 → p.length ≤ f2 → pathPartsF f1 p = pathPartsF f2 p := by
  intro f1
  induction f1 with
  | zero =>
    intro f2 p h1 h2
    have hp : p = [] := List.eq_nil_of_length_eq_zero (Nat.le_zero.mp h1)
    subst hp
    exact (pathPartsF_stop (by simp) 0).trans (pathPartsF_stop (by simp) f2).symm
  | succ f1 ih =>
    intro f2 p h1 h2
    by_cases hstop : (isRoot p || decide (p = [])) = true
    · exact (pathPartsF_stop hstop _).trans (pathPartsF_stop hstop _).symm
    · have hne : p ≠ [] := by
        intro h0
        exact hstop (by simp [h0])
      have hroot : isRoot p = false := by
        cases hr : isRoot p with
        | false => rfl
        | true => exact absurd (by simp [hr]) hstop
      have hlt := up_length_lt hroot hne
      cases f2 with
      | zero =>
        exact absurd (List.eq_nil_of_length_eq_zero (Nat.le_zero.mp h2)) hne
      | succ f2 =>
        simp only [pathPartsF, if_neg hstop]
        congr 1
        exact ih (by omega) (by omega)

/-- Fuel-free unfolding of `pathParts`, matching the Go loop step by step. -/
theorem pathParts_eq (p : List Char) :
    pathParts p =
      if (isRoot p || decide (p = [])) = true then [] else p :: pathParts (up p) := by
  by_cases hstop : (isRoot p || decide (p = [])) = true
  · rw [if_pos hstop]
    exact pathPartsF_stop hstop _
  · rw [if_neg hstop]
    have hne : p ≠ [] := by
      intro h0
      exact hstop (by simp [h0])
    have hroot : isRoot p = false := by
      cases hr : isRoot p with
      | false => rfl
      | true => exact absurd (by simp [hr]) hstop
    have hlt := up_length_lt hroot hne
    unfold pathParts
    obtain ⟨n, hn⟩ : ∃ n, p.length = n + 1 := by
      cases hp : p with
      | nil => exact absurd hp hne
      | cons a t => exact ⟨t.length, by simp⟩
    rw [hn]
    simp only [pathPartsF, if_neg hstop]
    congr 1
    exact pathPartsF_congr n (by omega) (by omega)

/-! ### Components and `EachComponent`, transcribed from src/tree/path.go -/

/-- A path component: a field segment or an index marker, as classified and
extracted by the loop body of Go `Path.EachComponent`. -/
inductive Comp where
  | fld (n : List Char)
  | idx (i : Int)
deriving DecidableEq, Repr

/-- The component the `EachComponent` loop body extracts from one part. -/
def compOf (part : List Char) : Comp :=
  if isArrayElement part then Comp.idx (index part) else Comp.fld (fieldName part)

/-- The reverse-order replay loop of Go `Path.EachComponent`: visit the
buffered parts (already reordered root-to-leaf), dispatching on
`IsArrayElement` and stopping with `false` as soon as a callback refuses. -/
def eachFrom (f : List Char → Bool) (g : Int → Bool) : List (List Char) → Bool
  | [] => true
  | part :: rest =>
    if isArrayElement part then
      if g (index part) then eachFrom f g rest else false
    else
      if f (fieldName part) then eachFrom f g rest else false

/-- Go `Path.EachComponent`: buffer the ancestors leaf-first, then replay
them in reverse (root-to-leaf) order. -/
def eachComponent (p : List Char) (f : List Char → Bool) (g : Int → Bool) : Bool :=
  eachFrom f g (pathParts p).reverse

/-- The root-to-leaf component sequence of a path, exactly as the
`EachComponent` replay loop would dispatch it. -/
def components (p : List Char) : List Comp :=
  ((pathParts p).reverse).map compOf

/-- Apply the pair of callbacks to one component. -/
def applyComp (f : List Char → Bool) (g : Int → Bool) : Comp → Bool
  | Comp.fld n => f n
  | Comp.idx i => g i

/-- Early-exit traversal of a component list by a callback pair. -/
def eachList (f : List Char → Bool) (g : Int → Bool) : List Comp → Bool
  | [] => true
  | c :: rest => if applyComp f g c then eachList f g rest else false

theorem eachFrom_eq_eachList (f : List Char → Bool) (g : Int → Bool) :
    ∀ l : List (List Char), eachFrom f g l = eachList f g (l.map compOf) := by
  intro l
  induction l with
  | nil => rfl
  | cons part rest ih =>
    simp only [eachFrom, List.map_cons, eachList, compOf]
    by_cases harr : isArrayElement part = true
    · simp [harr, applyComp, ih]
    · simp [harr, applyComp, ih]

/-- `EachComponent` is the early-exit traversal of the path's root-to-leaf
component sequence. -/
theorem eachComponent_eq_eachList (p : List Char) (f : List Char → Bool) (g : Int → Bool) :
    eachComponent p f g = eachList f g (components p) := by
  unfold eachComponent components
  exact eachFrom_eq_eachList f g _

theorem eachList_all {f : List Char → Bool} {g : Int → Bool} :
    ∀ {cs : List Comp}, (∀ c ∈ cs, applyComp f g c = true) → eachList f g cs = true := by
  intro cs
  induction cs with
  | nil => intro _; rfl
  | cons c rest ih =>
    intro h
    simp only [eachList, h c (List.mem_cons_self c rest), if_true]
    exact ih fun d hd => h d (List.mem_cons_of_mem c hd)

/-! ### Character-level facts about rendered indices and field names -/

theorem digitChar_ne : ∀ d : Nat,
    digitChar d ≠ sepChar ∧ digitChar d ≠ '[' ∧ digitChar d ≠ ']'
  | 0 => by refine ⟨?_, ?_, ?_⟩ <;> decide
  | 1 => by refine ⟨?_, ?_, ?_⟩ <;> decide
  | 2 => by refine ⟨?_, ?_, ?_⟩ <;> decide
  | 3 => by refine ⟨?_, ?_, ?_⟩ <;> decide
  | 4 => by refine ⟨?_, ?_, ?_⟩ <;> decide
  | 5 => by refine ⟨?_, ?_, ?_⟩ <;> decide
  | 6 => by refine ⟨?_, ?_, ?_⟩ <;> decide
  | 7 => by refine ⟨?_, ?_, ?_⟩ <;> decide
  | 8 => by refine ⟨?_, ?_, ?_⟩ <;> decide
  | (d + 9) => by
    have h : digitChar (d + 9) = '9' := rfl
    rw [h]
    refine ⟨?_, ?_, ?_⟩ <;> decide

theorem mem_natCharsAux : ∀ (fuel n : Nat) {c : Char},
    c ∈ natCharsAux fuel n → ∃ d, c = digitChar d := by
  intro fuel
  induction fuel with
  | zero => intro n c h; exact absurd h (List.not_mem_nil c)
  | succ f ih =>
    intro n c h
    simp only [natCharsAux] at h
    split at h
    · simp only [List.mem_singleton] at h
      exact ⟨n, h⟩
    · rcases List.mem_append.mp h with h1 | h1
      · exact ih _ h1
      · simp only [List.mem_singleton] at h1
        exact ⟨n % 10, h1⟩

theorem mem_intChars {i : Int} {c : Char} (h : c ∈ intChars i) :
    c = '-' ∨ ∃ d, c = digitChar d := by
  unfold intChars natChars at h
  split at h
  · rcases List.mem_cons.mp h with h1 | h1
    · exact Or.inl h1
    · exact Or.inr (mem_natCharsAux _ _ h1)
  · exact Or.inr (mem_natCharsAux _ _ h)

theorem sep_not_mem_intChars (i : Int) : sepChar ∉ intChars i := by
  intro h
  rcases mem_intChars h with h1 | ⟨d, h1⟩
  · exact absurd h1 (by decide)
  · exact absurd h1.symm (digitChar_ne d).1

theorem lbracket_not_mem_intChars (i : Int) : '[' ∉ intChars i := by
  intro h
  rcases mem_intChars h with h1 | ⟨d, h1⟩
  · exact absurd h1 (by decide)
  · exact absurd h1.symm (digitChar_ne d).2.1

theorem validFieldName_not_mem {n : List Char} (h : isValidFieldName n = true) :
    sepChar ∉ n ∧ '[' ∉ n ∧ ']' ∉ n := by
  unfold isValidFieldName at h
  rw [Bool.not_eq_true'] at h
  rw [List.any_eq_false] at h
  refine ⟨fun hm => ?_, fun hm => ?_, fun hm => ?_⟩
  · have := h sepChar hm
    simp at this
  · have := h '[' hm
    simp at this
  · have := h ']' hm
    simp at this

theorem isRoot_iff {p : List Char} : isRoot p = true ↔ p = [sepChar] := by
  unfold isRoot
  exact decide_eq_true_iff

theorem isAbsolute_append {p : List Char} (q : List Char)
    (h : isAbsolute p = true) : isAbsolute (p ++ q) = true := by
  cases p with
  | nil => simp [isAbsolute] at h
  | cons c t => simpa [isAbsolute] using h

theorem contains_eq_true_of_mem {l : List Char} {c : Char} (h : c ∈ l) :
    l.contains c = true := by
  simp only [List.contains, List.elem_eq_mem, decide_eq_true_eq]
  exact h

/-! ### `Up` undoes `DownIndex` and a valid `DownField` -/

theorem lbracket_mem_downIndex (p : List Char) (i : Int) :
    '[' ∈ downIndex p i := by
  unfold downIndex
  exact List.mem_append_right _ (List.mem_cons_self _ _)

theorem isRoot_downIndex (p : List Char) (i : Int) :
    isRoot (downIndex p i) = false := by
  rw [Bool.eq_false_iff]
  intro h
  have hmem := lbracket_mem_downIndex p i
  rw [isRoot_iff.mp h] at hmem
  simp only [List.mem_singleton] at hmem
  exact absurd hmem (by decide)

theorem sep_not_mem_downIndexSuffix (i : Int) :
    sepChar ∉ '[' :: (intChars i ++ [']']) := by
  intro h
  rcases List.mem_cons.mp h with h1 | h1
  · exact absurd h1 (by decide)
  · rcases List.mem_append.mp h1 with h2 | h2
    · exact sep_not_mem_intChars i h2
    · simp only [List.mem_singleton] at h2
      exact absurd h2 (by decide)

theorem isArrayElement_downIndex (p : List Char) (i : Int) :
    isArrayElement (downIndex p i) = true := by
  unfold isArrayElement
  rw [isRoot_downIndex p i]
  simp only [Bool.false_eq_true, if_false]
  have hseg : lastSegment (downIndex p i) =
      lastSegment p ++ ('[' :: (intChars i ++ [']'])) := by
    unfold downIndex
    exact lastSegment_append_sepfree p (sep_not_mem_downIndexSuffix i)
  rw [hseg]
  exact contains_eq_true_of_mem
    (List.mem_append_right _ (List.mem_cons_self _ _))

theorem up_downIndex (p : List Char) (i : Int) : up (downIndex p i) = p := by
  have hroot := isRoot_downIndex p i
  have harr := isArrayElement_downIndex p i
  have htail : '[' ∉ intChars i ++ [']'] := by
    intro h
    rcases List.mem_append.mp h with h1 | h1
    · exact lbracket_not_mem_intChars i h1
    · simp only [List.mem_singleton] at h1
      exact absurd h1 (by decide)
  have hys : lastIndexChar '[' ('[' :: (intChars i ++ [']'])) = 0 := by
    simp [lastIndexChar, lastIndexChar_neg_of_not_mem htail]
  have hlast : lastIndexChar '[' (downIndex p i) = (p.length : Int) := by
    unfold downIndex
    rw [lastIndexChar_append, hys]
    simp
  unfold up
  rw [hroot, harr]
  simp only [Bool.false_eq_true, if_false, if_true]
  rw [hlast]
  unfold goSlice downIndex
  simp only [List.drop_zero, Int.toNat_natCast]
  exact List.take_left p _

theorem downFieldRaw_root {n : List Char} :
    downFieldRaw [sepChar] n = sepChar :: n := by
  unfold downFieldRaw
  simp [isAbsolute, isRoot, sepChar]

theorem downFieldRaw_nonroot {p : List Char} (n : List Char)
    (h : isRoot p = false) : downFieldRaw p n = p ++ sepChar :: n := by
  unfold downFieldRaw
  rw [h]
  simp

theorem splitSep_downFieldRaw_nonroot {p n : List Char}
    (hroot : isRoot p = false) (hsep : sepChar ∉ n) :
    splitSep (downFieldRaw p n) = splitSep p ++ [n] := by
  rw [downFieldRaw_nonroot n hroot, splitSep_append_sep, splitSep_sepfree hsep]

theorem isRoot_downFieldRaw_nonroot {p : List Char} (n : List Char)
    (hne : p ≠ []) (hroot : isRoot p = false) :
    isRoot (downFieldRaw p n) = false := by
  rw [Bool.eq_false_iff]
  intro h
  have h2 := isRoot_iff.mp h
  rw [downFieldRaw_nonroot n hroot] at h2
  have hlen := congrArg List.length h2
  simp only [List.length_append, List.length_cons, List.length_nil] at hlen
  have hpos : 0 < p.length := List.length_pos.mpr hne
  omega

theorem isArrayElement_downFieldRaw_nonroot {p n : List Char}
    (hroot : isRoot p = false) (hval : isValidFieldName n = true) :
    isArrayElement (downFieldRaw p n) = false := by
  obtain ⟨hsep, hlb, _⟩ := validFieldName_not_mem hval
  unfold isArrayElement
  split
  · rfl
  · rw [Bool.eq_false_iff]
    intro hcont
    have hseg : lastSegment (downFieldRaw p n) = n := by
      unfold lastSegment
      rw [splitSep_downFieldRaw_nonroot hroot hsep]
      simp [List.getLastD_concat]
    rw [hseg] at hcont
    simp only [List.contains, List.elem_eq_mem, decide_eq_true_eq] at hcont
    exact hlb hcont

theorem up_downFieldRaw {p n : List Char} (habs : isAbsolute p = true)
    (hval : isValidFieldName n = true) : up (downFieldRaw p n) = p := by
  obtain ⟨hsep, hlb, _⟩ := validFieldName_not_mem hval
  by_cases hroot : isRoot p = true
  · have hp : p = [sepChar] := isRoot_iff.mp hroot
    subst hp
    rw [downFieldRaw_root]
    cases hn : n with
    | nil => rfl
    | cons c t =>
      rw [← hn]
      have hnne : n ≠ [] := by rw [hn]; simp
      have hroot2 : isRoot (sepChar :: n) = false := by
        rw [Bool.eq_false_iff]
        intro h
        have := isRoot_iff.mp h
        simp only [List.cons.injEq] at this
        exact hnne this.2
      have hsplit2 : splitSep (sepChar :: n) = [] :: [n] := by
        rw [splitSep_sep_cons, splitSep_sepfree hsep]
      have harr2 : isArrayElement (sepChar :: n) = false := by
        unfold isArrayElement
        rw [hroot2]
        simp only [Bool.false_eq_true, if_false]
        rw [Bool.eq_false_iff]
        intro hcont
        have hseg : lastSegment (sepChar :: n) = n := by
          unfold lastSegment
          rw [hsplit2]
          simp
        rw [hseg] at hcont
        simp only [List.contains, List.elem_eq_mem, decide_eq_true_eq] at hcont
        exact hlb hcont
      unfold up
      rw [hroot2, harr2]
      simp only [Bool.false_eq_true, if_false]
      rw [if_pos (by simp [isAbsolute] : isAbsolute (sepChar :: n) = true)]
      rw [hsplit2]
      simp [joinSep]
  · have hroot2 : isRoot p = false := Bool.eq_false_iff.mpr hroot
    have hne : p ≠ [] := by
      intro h
      rw [h] at habs
      simp [isAbsolute] at habs
    obtain ⟨t, hpt⟩ : ∃ t, p = sepChar :: t := by
      cases p with
      | nil => exact absurd rfl hne
      | cons c rest =>
        have hc : c = sepChar := by
          unfold isAbsolute at habs
          simpa using habs
        exact ⟨rest, by rw [hc]⟩
    have hroot3 := isRoot_downFieldRaw_nonroot n hne hroot2
    have harr3 := isArrayElement_downFieldRaw_nonroot hroot2 hval
    have habs3 : isAbsolute (downFieldRaw p n) = true := by
      rw [downFieldRaw_nonroot n hroot2]
      exact isAbsolute_append _ habs
    unfold up
    rw [hroot3, harr3]
    simp only [Bool.false_eq_true, if_false]
    rw [if_pos habs3]
    rw [splitSep_downFieldRaw_nonroot hroot2 hsep]
    rw [hpt, splitSep_sep_cons]
    have hdl : (([] :: splitSep t ++ [n]).drop 1).dropLast = splitSep t := by
      simp [List.dropLast_concat]
    rw [hdl, joinSep_splitSep]

theorem fieldName_downFieldRaw {p n : List Char} (habs : isAbsolute p = true)
    (hval : isValidFieldName n = true) :
    fieldName (downFieldRaw p n) = n := by
  obtain ⟨hsep, hlb, _⟩ := validFieldName_not_mem hval
  by_cases hroot : isRoot p = true
  · have hp : p = [sepChar] := isRoot_iff.mp hroot
    subst hp
    rw [downFieldRaw_root]
    cases hn : n with
    | nil => rfl
    | cons c t =>
      rw [← hn]
      have hnne : n ≠ [] := by rw [hn]; simp
      have hroot2 : isRoot (sepChar :: n) = false := by
        rw [Bool.eq_false_iff]
        intro h
        have := isRoot_iff.mp h
        simp only [List.cons.injEq] at this
        exact hnne this.2
      have hsplit2 : splitSep (sepChar :: n) = [] :: [n] := by
        rw [splitSep_sep_cons, splitSep_sepfree hsep]
      have harr2 : isArrayElement (sepChar :: n) = false := by
        unfold isArrayElement
        rw [hroot2]
        simp only [Bool.false_eq_true, if_false]
        rw [Bool.eq_false_iff]
        intro hcont
        have hseg : lastSegment (sepChar :: n) = n := by
          unfold lastSegment
          rw [hsplit2]
          simp
        rw [hseg] at hcont
        simp only [List.contains, List.elem_eq_mem, decide_eq_true_eq] at hcont
        exact hlb hcont
      unfold fieldName
      rw [hroot2, harr2]
      simp only [Bool.or_self, Bool.false_eq_true, if_false]
      unfold lastSegment
      rw [hsplit2]
      simp
  · have hroot2 : isRoot p = false := Bool.eq_false_iff.mpr hroot
    have hne : p ≠ [] := by
      intro h
      rw [h] at habs
      simp [isAbsolute] at habs
    have hroot3 := isRoot_downFieldRaw_nonroot n hne hroot2
    have harr3 := isArrayElement_downFieldRaw_nonroot hroot2 hval
    unfold fieldName
    rw [hroot3, harr3]
    simp only [Bool.or_self, Bool.false_eq_true, if_false]
    unfold lastSegment
    rw [splitSep_downFieldRaw_nonroot hroot2 hsep]
    simp [List.getLastD_concat]

theorem eachList_stops {f : List Char → Bool} {g : Int → Bool} :
    ∀ (cs1 : List Comp) {c : Comp} (cs2 : List Comp),
      (∀ d ∈ cs1, applyComp f g d = true) → applyComp f g c = false →
      eachList f g (cs1 ++ c :: cs2) = false := by
  intro cs1
  induction cs1 with
  | nil =>
    intro c cs2 _ hc
    simp [eachList, hc]
  | cons d rest ih =>
    intro c cs2 hall hc
    simp only [List.cons_append, eachList, hall d (List.mem_cons_self d rest), if_true]
    exact ih cs2 (fun e he => hall e (List.mem_cons_of_mem d he)) hc

/-! ### Paths reachable from the root via `DownField` / `DownIndex` -/

/-- The paths the spec quantifies over: built from `NewPath()` by the two
descend operations (with valid field names, since `DownField` panics on
invalid ones). -/
inductive Built : List Char → Prop
  | root : Built newPath
  | fld {p : List Char} (n : List Char) :
      Built p → isValidFieldName n = true → Built (downFieldRaw p n)
  | idx {p : List Char} (i : Int) : Built p → Built (downIndex p i)

theorem built_absolute {p : List Char} (h : Built p) : isAbsolute p = true := by
  induction h with
  | root => decide
  | fld n hb hval ih =>
    unfold downFieldRaw
    split
    · exact isAbsolute_append _ ih
    · exact isAbsolute_append _ ih
  | idx i hb ih =>
    unfold downIndex
    exact isAbsolute_append _ ih

theorem built_ne_nil {p : List Char} (h : Built p) : p ≠ [] := by
  have habs := built_absolute h
  intro h0
  rw [h0] at habs
  simp [isAbsolute] at habs

theorem up_newPath : up newPath = newPath := by decide

/-! ### `Depth` through the descend operations -/

theorem depth_eq_counts {p : List Char} (habs : isAbsolute p = true) :
    depth p = (p.count sepChar : Int) - 1 + (p.count '[' : Int) := by
  unfold depth
  split
  · rename_i hroot
    have hp : p = [sepChar] := isRoot_iff.mp hroot
    subst hp
    decide
  · simp [habs]

theorem depth_downFieldRaw_root {n : List Char}
    (hval : isValidFieldName n = true) :
    depth (downFieldRaw newPath n) = 0 := by
  obtain ⟨hsep, hlb, _⟩ := validFieldName_not_mem hval
  have h0 : downFieldRaw newPath n = sepChar :: n := downFieldRaw_root
  have habs : isAbsolute (sepChar :: n) = true := by simp [isAbsolute]
  rw [h0, depth_eq_counts habs]
  have hc1 : (sepChar :: n).count sepChar = 1 := by
    rw [List.count_cons_self, List.count_eq_zero.mpr hsep]
  have hc2 : (sepChar :: n).count '[' = 0 := by
    rw [List.count_eq_zero]
    intro hm
    rcases List.mem_cons.mp hm with h1 | h1
    · exact absurd h1 (by decide)
    · exact hlb h1
  rw [hc1, hc2]
  simp

theorem depth_downFieldRaw_nonroot {p n : List Char} (hb : Built p)
    (hroot : isRoot p = false) (hval : isValidFieldName n = true) :
    depth (downFieldRaw p n) = depth p + 1 := by
  obtain ⟨hsep, hlb, _⟩ := validFieldName_not_mem hval
  have habs := built_absolute hb
  have habs2 : isAbsolute (downFieldRaw p n) = true := by
    rw [downFieldRaw_nonroot n hroot]
    exact isAbsolute_append _ habs
  rw [depth_eq_counts habs, depth_eq_counts habs2, downFieldRaw_nonroot n hroot]
  have hc1 : (p ++ sepChar :: n).count sepChar = p.count sepChar + 1 := by
    rw [List.count_append, List.count_cons_self, List.count_eq_zero.mpr hsep]
  have h0 : (sepChar :: n).count '[' = 0 := by
    rw [List.count_eq_zero]
    intro hm
    rcases List.mem_cons.mp hm with h1 | h1
    · exact absurd h1 (by decide)
    · exact hlb h1
  have hc2 : (p ++ sepChar :: n).count '[' = p.count '[' := by
    rw [List.count_append, h0]
    omega
  rw [hc1, hc2]
  push_cast
  ring

theorem lbracket_count_downIndexSuffix (i : Int) :
    ('[' :: (intChars i ++ [']'])).count '[' = 1 := by
  have h0 : (intChars i ++ [']']).count '[' = 0 := by
    rw [List.count_eq_zero]
    intro hm
    rcases List.mem_append.mp hm with h1 | h1
    · exact lbracket_not_mem_intChars i h1
    · simp only [List.mem_singleton] at h1
      exact absurd h1 (by decide)
  rw [List.count_cons_self, h0]

theorem depth_downIndex {p : List Char} (hb : Built p) (i : Int) :
    depth (downIndex p i) = depth p + 1 := by
  have habs := built_absolute hb
  have habs2 : isAbsolute (downIndex p i) = true := by
    unfold downIndex
    exact isAbsolute_append _ habs
  rw [depth_eq_counts habs, depth_eq_counts habs2]
  unfold downIndex
  have hc1 : (p ++ '[' :: (intChars i ++ [']'])).count sepChar = p.count sepChar := by
    rw [List.count_append, List.count_eq_zero.mpr (sep_not_mem_downIndexSuffix i)]
    omega
  have hc2 : (p ++ '[' :: (intChars i ++ [']'])).count '[' = p.count '[' + 1 := by
    rw [List.count_append, lbracket_count_downIndexSuffix]
  rw [hc1, hc2]
  push_cast
  ring

theorem built_depth_nonneg {p : List Char} (hb : Built p) : 0 ≤ depth p := by
  induction hb with
  | root => decide
  | fld n hb hval ih =>
    rename_i q
    by_cases hroot : isRoot q = true
    · have hq : q = [sepChar] := isRoot_iff.mp hroot
      subst hq
      rw [show ([sepChar] : List Char) = newPath from rfl,
        depth_downFieldRaw_root hval]
    · have h := depth_downFieldRaw_nonroot hb (Bool.eq_false_iff.mpr hroot) hval
      omega
  | idx i hb ih =>
    have h := depth_downIndex hb i
    omega

/-! ### `Up` climbs a built path back to the root -/

theorem built_upN_depth {p : List Char} (hb : Built p) :
    upN ((depth p).toNat + 1) p = newPath := by
  induction hb with
  | root => decide
  | fld n hb hval ih =>
    rename_i q
    by_cases hroot : isRoot q = true
    · have hq : q = [sepChar] := isRoot_iff.mp hroot
      subst hq
      cases hn : n with
      | nil => decide
      | cons c t =>
        rw [← hn]
        rw [show ([sepChar] : List Char) = newPath from rfl,
          depth_downFieldRaw_root hval]
        show up (downFieldRaw newPath n) = newPath
        exact up_downFieldRaw (by decide) hval
    · have hroot2 : isRoot q = false := Bool.eq_false_iff.mpr hroot
      have hd := depth_downFieldRaw_nonroot hb hroot2 hval
      have hnn := built_depth_nonneg hb
      have htn : (depth (downFieldRaw q n)).toNat = (depth q).toNat + 1 := by
        rw [hd]; omega
      rw [htn]
      show upN ((depth q).toNat + 1) (up (downFieldRaw q n)) = newPath
      rw [up_downFieldRaw (built_absolute hb) hval]
      exact ih
  | idx i hb ih =>
    rename_i q
    have hd := depth_downIndex hb i
    have hnn := built_depth_nonneg hb
    have htn : (depth (downIndex q i)).toNat = (depth q).toNat + 1 := by
      rw [hd]; omega
    rw [htn]
    show upN ((depth q).toNat + 1) (up (downIndex q i)) = newPath
    rw [up_downIndex]
    exact ih

/-! ### Component sequences of built paths -/

theorem pathParts_step {q : List Char} (hroot : isRoot q = false) (hne : q ≠ []) :
    pathParts q = q :: pathParts (up q) := by
  rw [pathParts_eq q, if_neg (by simp [hroot, hne])]

theorem downIndex_ne_nil (p : List Char) (i : Int) : downIndex p i ≠ [] := by
  unfold downIndex
  simp

theorem components_downIndex {p : List Char} (_hb : Built p) (i : Int) :
    components (downIndex p i) =
      components p ++ [Comp.idx (index (downIndex p i))] := by
  unfold components
  rw [pathParts_step (isRoot_downIndex p i) (downIndex_ne_nil p i), up_downIndex]
  rw [List.reverse_cons, List.map_append]
  congr 1
  simp [compOf, isArrayElement_downIndex]

theorem isRoot_downFieldRaw {p n : List Char} (hb : Built p)
    (hne : n ≠ []) : isRoot (downFieldRaw p n) = false := by
  by_cases hroot : isRoot p = true
  · have hp : p = [sepChar] := isRoot_iff.mp hroot
    subst hp
    rw [downFieldRaw_root, Bool.eq_false_iff]
    intro h
    have := isRoot_iff.mp h
    simp only [List.cons.injEq] at this
    exact hne this.2
  · exact isRoot_downFieldRaw_nonroot n (built_ne_nil hb) (Bool.eq_false_iff.mpr hroot)

theorem isArrayElement_downFieldRaw {p n : List Char} (hb : Built p)
    (hval : isValidFieldName n = true) :
    isArrayElement (downFieldRaw p n) = false := by
  obtain ⟨hsep, hlb, _⟩ := validFieldName_not_mem hval
  by_cases hroot : isRoot p = true
  · have hp : p = [sepChar] := isRoot_iff.mp hroot
    subst hp
    rw [downFieldRaw_root]
    cases hn : n with
    | nil => decide
    | cons c t =>
      rw [← hn]
      have hnne : n ≠ [] := by rw [hn]; simp
      unfold isArrayElement
      split
      · rfl
      · rw [Bool.eq_false_iff]
        intro hcont
        have hseg : lastSegment (sepChar :: n) = n := by
          unfold lastSegment
          rw [splitSep_sep_cons, splitSep_sepfree hsep]
          simp
        rw [hseg] at hcont
        simp only [List.contains, List.elem_eq_mem, decide_eq_true_eq] at hcont
        exact hlb hcont
  · exact isArrayElement_downFieldRaw_nonroot (Bool.eq_false_iff.mpr hroot) hval

theorem downFieldRaw_ne_nil {p n : List Char} (hb : Built p) :
    downFieldRaw p n ≠ [] := by
  have hne := built_ne_nil hb
  unfold downFieldRaw
  split
  · simp [hne]
  · simp [hne]

theorem components_downFieldRaw {p n : List Char} (hb : Built p)
    (hval : isValidFieldName n = true) (hne : n ≠ []) :
    components (downFieldRaw p n) = components p ++ [Comp.fld n] := by
  unfold components
  rw [pathParts_step (isRoot_downFieldRaw hb hne) (downFieldRaw_ne_nil hb),
    up_downFieldRaw (built_absolute hb) hval]
  rw [List.reverse_cons, List.map_append]
  congr 1
  simp [compOf, isArrayElement_downFieldRaw hb hval,
    fieldName_downFieldRaw (built_absolute hb) hval]

/-! ### Build-step sequences, for stating order/kind preservation -/

/-- One descend operation, in the order it is applied from the root. -/
inductive Step where
  | fld (n : List Char)
  | idx (i : Int)
deriving DecidableEq, Repr

/-- Apply one descend operation. -/
def applyStep (p : List Char) : Step → List Char
  | Step.fld n => downFieldRaw p n
  | Step.idx i => downIndex p i

/-- The path reached from the root by a sequence of descend operations. -/
def buildPath (steps : List Step) : List Char :=
  steps.foldl applyStep newPath

/-- A step is admissible: field names are valid and non-empty (the empty
name at root degenerates to the root path itself and adds no segment). -/
def stepOk : Step → Prop
  | Step.fld n => isValidFieldName n = true ∧ n ≠ []
  | Step.idx _ => True

/-- The kind of a component, with the field name retained. -/
def compShape : Comp → Option (List Char)
  | Comp.fld n => some n
  | Comp.idx _ => none

/-- The kind of a step, with the field name retained. -/
def stepShape : Step → Option (List Char)
  | Step.fld n => some n
  | Step.idx _ => none

theorem built_foldl : ∀ (steps : List Step) (p : List Char), Built p →
    (∀ s ∈ steps, stepOk s) → Built (steps.foldl applyStep p) := by
  intro steps
  induction steps with
  | nil => intro p hb _; exact hb
  | cons s rest ih =>
    intro p hb hok
    have hs := hok s (List.mem_cons_self s rest)
    have hrest : ∀ t ∈ rest, stepOk t := fun t ht => hok t (List.mem_cons_of_mem s ht)
    rw [List.foldl_cons]
    apply ih _ _ hrest
    cases s with
    | fld n => exact Built.fld n hb hs.1
    | idx i => exact Built.idx i hb

theorem components_foldl : ∀ (steps : List Step) (p : List Char), Built p →
    (∀ s ∈ steps, stepOk s) →
    (components (steps.foldl applyStep p)).map compShape =
      (components p).map compShape ++ steps.map stepShape := by
  intro steps
  induction steps with
  | nil => intro p hb _; simp
  | cons s rest ih =>
    intro p hb hok
    have hs := hok s (List.mem_cons_self s rest)
    have hrest : ∀ t ∈ rest, stepOk t := fun t ht => hok t (List.mem_cons_of_mem s ht)
    rw [List.foldl_cons]
    have hb2 : Built (applyStep p s) := by
      cases s with
      | fld n => exact Built.fld n hb hs.1
      | idx i => exact Built.idx i hb
    rw [ih _ hb2 hrest]
    have hstep : (components (applyStep p s)).map compShape =
        (components p).map compShape ++ [stepShape s] := by
      cases s with
      | fld n =>
        show (components (downFieldRaw p n)).map compShape = _
        rw [components_downFieldRaw hb hs.1 hs.2]
        simp [compShape, stepShape]
      | idx i =>
        show (components (downIndex p i)).map compShape = _
        rw [components_downIndex hb i]
        simp [compShape, stepShape]
    rw [hstep]
    simp

/-! ## Claim theorems about `Path` -/

/-- C2: the claim states that `p.DownIndex(i).Index()` returns `i` for every
built path `p` and every non-negative `i`.  The code computes the slice
bounds inside the last segment but applies them to the whole path string, so
the bounds are off by the offset of the last segment: on the built path
`/a/b` (reached by `DownField("a").DownField("b")`), `DownIndex(3).Index()`
slices out the substring `"b"`, `Atoi` fails, and the dropped-error zero
value `0` is returned instead of `3`.  Directly under the root the offset is
`1` and the arithmetic coincidentally cancels, which is why
`/a` + `DownIndex(3)` does give `3`. -/
theorem c2_index_misreads_deep_paths :
    index (downIndex (downFieldRaw (downFieldRaw newPath ['a']) ['b']) 3) = 0 ∧
    index (downIndex (downFieldRaw newPath ['a']) 3) = 3 := by
  refine ⟨?_, ?_⟩ <;> decide

/-- C3 counterexample: `/a` is a built path with `Depth() = 0`, but applying
`Up()` zero times leaves `/a`, which is not the root — the claim's
`Depth()`-many applications are one short for every non-root path. -/
theorem c3_counterexample :
    Built (downFieldRaw newPath ['a']) ∧
    ¬ upN (depth (downFieldRaw newPath ['a'])).toNat
        (downFieldRaw newPath ['a']) = newPath :=
  ⟨Built.fld ['a'] Built.root (by decide), by decide⟩

/-- C3 (amended): for every built path, applying `Up()` exactly
`Depth() + 1` times yields the root, and one further `Up()` still yields the
root (`Up` is idempotent at the root). -/
theorem c3_up_depth_succ_reaches_root :
    ∀ p : List Char, Built p →
      upN ((depth p).toNat + 1) p = newPath ∧
      up (upN ((depth p).toNat + 1) p) = newPath := by
  intro p hb
  have h1 := built_upN_depth hb
  exact ⟨h1, by rw [h1]; exact up_newPath⟩

theorem c3_witness :
    upN ((depth (downIndex (downFieldRaw newPath ['a']) 0)).toNat + 1)
        (downIndex (downFieldRaw newPath ['a']) 0) = newPath ∧
    up (upN ((depth (downIndex (downFieldRaw newPath ['a']) 0)).toNat + 1)
        (downIndex (downFieldRaw newPath ['a']) 0)) = newPath :=
  c3_up_depth_succ_reaches_root _
    (Built.idx 0 (Built.fld ['a'] Built.root (by decide)))

/-- C4: descending then ascending round-trips.  A successful
`DownField(name)` (any name free of the separator and brackets, the empty
string included) followed by `Up()` is the identity on built paths; so is
`DownIndex(i).Up()` for every integer `i`; and `Up()` at the root returns
the root. -/
theorem c4_down_up_roundtrip :
    (∀ p n q : List Char, Built p → downField p n = some q →
      pathIsEqual (up q) p = true) ∧
    (∀ (p : List Char) (i : Int), Built p →
      pathIsEqual (up (downIndex p i)) p = true) ∧
    up newPath = newPath := by
  refine ⟨?_, ?_, up_newPath⟩
  · intro p n q hb hq
    unfold downField at hq
    split at hq
    · rename_i hval
      have hq2 : q = downFieldRaw p n := (Option.some.injEq _ _).mp hq.symm
      subst hq2
      rw [up_downFieldRaw (built_absolute hb) hval]
      unfold pathIsEqual
      simp
    · exact absurd hq (by simp)
  · intro p i hb
    rw [up_downIndex]
    unfold pathIsEqual
    simp

theorem c4_witness :
    pathIsEqual (up (downFieldRaw newPath ['a'])) newPath = true ∧
    pathIsEqual (up (downIndex newPath 2)) newPath = true :=
  ⟨c4_down_up_roundtrip.1 newPath ['a'] (downFieldRaw newPath ['a'])
      Built.root (by decide),
    c4_down_up_roundtrip.2.1 newPath 2 Built.root⟩

/-- C5: `Depth` is `0` at the root and for a field directly under the root;
each further field nesting adds exactly `1`, each index marker adds exactly
`1`; on every built (hence absolute) path `Depth` equals the separator count
minus one plus the `[` count; and the path `/a[0][1][2]` has depth `3`. -/
theorem c5_depth :
    depth newPath = 0 ∧
    (∀ n : List Char, isValidFieldName n = true →
      depth (downFieldRaw newPath n) = 0) ∧
    (∀ p n : List Char, Built p → isRoot p = false →
      isValidFieldName n = true →
      depth (downFieldRaw p n) = depth p + 1) ∧
    (∀ (p : List Char) (i : Int), Built p →
      depth (downIndex p i) = depth p + 1) ∧
    (∀ p : List Char, Built p →
      depth p = (p.count sepChar : Int) - 1 + (p.count '[' : Int)) ∧
    depth (downIndex (downIndex (downIndex (downFieldRaw newPath ['a']) 0) 1) 2) = 3 := by
  refine ⟨by decide, ?_, ?_, ?_, ?_, by decide⟩
  · intro n hval
    exact depth_downFieldRaw_root hval
  · intro p n hb hroot hval
    exact depth_downFieldRaw_nonroot hb hroot hval
  · intro p i hb
    exact depth_downIndex hb i
  · intro p hb
    exact depth_eq_counts (built_absolute hb)

theorem c5_witness :
    depth (downFieldRaw newPath ['z']) = 0 ∧
    depth (downFieldRaw (downFieldRaw newPath ['a']) ['b']) =
      depth (downFieldRaw newPath ['a']) + 1 ∧
    depth (downIndex (downFieldRaw newPath ['a']) 7) =
      depth (downFieldRaw newPath ['a']) + 1 ∧
    depth (downFieldRaw newPath ['a']) =
      ((downFieldRaw newPath ['a']).count sepChar : Int) - 1 +
        ((downFieldRaw newPath ['a']).count '[' : Int) :=
  ⟨c5_depth.2.1 ['z'] (by decide),
    c5_depth.2.2.1 (downFieldRaw newPath ['a']) ['b']
      (Built.fld ['a'] Built.root (by decide)) (by decide) (by decide),
    c5_depth.2.2.2.1 (downFieldRaw newPath ['a']) 7
      (Built.fld ['a'] Built.root (by decide)),
    c5_depth.2.2.2.2.1 (downFieldRaw newPath ['a'])
      (Built.fld ['a'] Built.root (by decide))⟩

/-- C6: `EachComponent` replays exactly the root-to-leaf component sequence
of the path: it equals the early-exit traversal of `components p`; it
returns `true` when every component's callback accepts; it returns `false`
as soon as some callback refuses, regardless of anything after that point;
on any admissible build-step sequence the visited kinds (with the field
names) match the steps in order; and on
`root.DownField("a").DownIndex(1).DownIndex(4)` the visited sequence is
exactly field `"a"`, index `1`, index `4`. -/
theorem c6_each_component :
    (∀ (p : List Char) (f : List Char → Bool) (g : Int → Bool),
      eachComponent p f g = eachList f g (components p)) ∧
    (∀ (p : List Char) (f : List Char → Bool) (g : Int → Bool),
      (∀ c ∈ components p, applyComp f g c = true) →
      eachComponent p f g = true) ∧
    (∀ (p : List Char) (f : List Char → Bool) (g : Int → Bool)
      (cs1 : List Comp) (c : Comp) (cs2 : List Comp),
      components p = cs1 ++ c :: cs2 →
      (∀ d ∈ cs1, applyComp f g d = true) →
      applyComp f g c = false →
      eachComponent p f g = false) ∧
    (∀ steps : List Step, (∀ s ∈ steps, stepOk s) →
      (components (buildPath steps)).map compShape = steps.map stepShape) ∧
    components (downIndex (downIndex (downFieldRaw newPath ['a']) 1) 4) =
      [Comp.fld ['a'], Comp.idx 1, Comp.idx 4] := by
  refine ⟨eachComponent_eq_eachList, ?_, ?_, ?_, by decide⟩
  · intro p f g h
    rw [eachComponent_eq_eachList]
    exact eachList_all h
  · intro p f g cs1 c cs2 hcomp hall hc
    rw [eachComponent_eq_eachList, hcomp]
    exact eachList_stops cs1 cs2 hall hc
  · intro steps hok
    unfold buildPath
    rw [components_foldl steps newPath Built.root hok]
    rfl

theorem c6_witness :
    eachComponent (downIndex (downFieldRaw newPath ['a']) 1)
      (fun _ => true) (fun i => decide (i < 1)) = false ∧
    eachComponent (downIndex (downFieldRaw newPath ['a']) 1)
      (fun _ => true) (fun _ => true) = true :=
  ⟨c6_each_component.2.2.1 (downIndex (downFieldRaw newPath ['a']) 1)
      (fun _ => true) (fun i => decide (i < 1))
      [Comp.fld ['a']] (Comp.idx 1) [] (by decide) (by decide) (by decide),
    c6_each_component.2.1 (downIndex (downFieldRaw newPath ['a']) 1)
      (fun _ => true) (fun _ => true) (by decide)⟩

/-! ## Error values (src/issers/validate_error.go) -/

/-- The repository's two concrete `ValidateError` variants:
`SimpleValidateError` (a plain message string) and `ShouldBeMsg` (a format
string plus arguments; the integer-argument asserters are the ones
modelled, so arguments are integers here). -/
inductive VErr where
  | simple (msg : List Char)
  | shouldBe (msgFmt : List Char) (args : List Int)
deriving DecidableEq, Repr

/-- The dynamic-dispatch `IsEqual` contract of the two variants: each
variant type-asserts its own type and compares contents, so equality is
variant-aware and returns `false` (never fails) across variants. -/
def vErrIsEqual : VErr → VErr → Bool
  | VErr.simple a, VErr.simple b => decide (a = b)
  | VErr.shouldBe f1 a1, VErr.shouldBe f2 a2 => decide (f1 = f2) && decide (a1 = a2)
  | _, _ => false

/-! ## The error tree (src/unnamed/part_000) -/

mutual
/-- Go `ErrorNode`: lazily allocated maps of named and numbered children
(`none` models a nil Go map) and a lazily allocated error list (`none`
models a nil slice).  The non-owning parent back-pointer is not
represented: no modelled operation reads it. -/
inductive ErrorNode where
  | mk (named : Option FieldMap) (numbered : Option IndexMap)
      (errs : Option (List VErr))
/-- The `map[string]*ErrorNode` of named children, as an association list
(iteration order never affects any Boolean result below). -/
inductive FieldMap where
  | fnil
  | fcons (key : List Char) (child : ErrorNode) (rest : FieldMap)
/-- The sparse `map[int]*ErrorNode` of numbered children. -/
inductive IndexMap where
  | inil
  | icons (key : Int) (child : ErrorNode) (rest : IndexMap)
end

/-- The `NamedChildren` field. -/
def ErrorNode.named : ErrorNode → Option FieldMap
  | ErrorNode.mk a _ _ => a

/-- The `NumberedChildren` field. -/
def ErrorNode.numbered : ErrorNode → Option IndexMap
  | ErrorNode.mk _ b _ => b

/-- The `errs` field. -/
def ErrorNode.errs : ErrorNode → Option (List VErr)
  | ErrorNode.mk _ _ c => c

/-- Go map read `m[key]` with its `ok` flag, first match wins. -/
def fLookup : FieldMap → List Char → Option ErrorNode
  | FieldMap.fnil, _ => none
  | FieldMap.fcons k v rest, key => if k = key then some v else fLookup rest key

/-- Go map read `m[index]` with its `ok` flag. -/
def iLookup : IndexMap → Int → Option ErrorNode
  | IndexMap.inil, _ => none
  | IndexMap.icons k v rest, key => if k = key then some v else iLookup rest key

/-- `len` of the named-children map (keys are unique by construction). -/
def fLen : FieldMap → Nat
  | FieldMap.fnil => 0
  | FieldMap.fcons _ _ rest => fLen rest + 1

/-- `len` of the numbered-children map. -/
def iLen : IndexMap → Nat
  | IndexMap.inil => 0
  | IndexMap.icons _ _ rest => iLen rest + 1

/-- A read on a possibly-nil Go map (reading a nil map just misses). -/
def lookupField (m : Option FieldMap) (k : List Char) : Option ErrorNode :=
  match m with
  | none => none
  | some mm => fLookup mm k

/-- A read on a possibly-nil numbered map. -/
def lookupIndex (m : Option IndexMap) (k : Int) : Option ErrorNode :=
  match m with
  | none => none
  | some mm => iLookup mm k

/-- Go `NewErrorNode`: no maps, no errors. -/
def newErrorNode : ErrorNode := ErrorNode.mk none none none

/-- Go `ErrorNode.Add`: allocate the error slice lazily and append. -/
def addErr : ErrorNode → VErr → ErrorNode
  | ErrorNode.mk a b errs, e => ErrorNode.mk a b (some (errs.getD [] ++ [e]))

mutual
/-- Go `ErrorNode.HasErrors`: local errors, then a full recursive walk of
both child maps. -/
def nodeHasErrors : ErrorNode → Bool
  | ErrorNode.mk named numbered errs =>
    (match errs with
      | some l => decide (l.length ≠ 0)
      | none => false) ||
    (match named with
      | some m => fMapHasErrors m
      | none => false) ||
    (match numbered with
      | some m => iMapHasErrors m
      | none => false)

/-- The `for _, c := range n.NamedChildren` walk inside `HasErrors`. -/
def fMapHasErrors : FieldMap → Bool
  | FieldMap.fnil => false
  | FieldMap.fcons _ c rest => nodeHasErrors c || fMapHasErrors rest

/-- The `for _, c := range n.NumberedChildren` walk inside `HasErrors`. -/
def iMapHasErrors : IndexMap → Bool
  | IndexMap.inil => false
  | IndexMap.icons _ c rest => nodeHasErrors c || iMapHasErrors rest
end

/-- The navigation loop of Go `ErrorNode.traverseTo`: the stateful
`EachComponent` closures advance a `current` pointer through the read-only
map lookups and abort on the first missing child.  The closure pair is
modelled as a fold over the same root-to-leaf component sequence that
`EachComponent` replays (`eachComponent_eq_eachList`). -/
def navComps : ErrorNode → List Comp → Option ErrorNode
  | cur, [] => some cur
  | cur, Comp.fld k :: rest =>
    match lookupField cur.named k with
    | some c => navComps c rest
    | none => none
  | cur, Comp.idx j :: rest =>
    match lookupIndex cur.numbered j with
    | some c => navComps c rest
    | none => none

/-- Go `ErrorNode.traverseTo`. -/
def traverseTo (n : ErrorNode) (p : List Char) : Option ErrorNode :=
  navComps n (components p)

/-- Go `ErrorNode.HasErrorAt`: resolve read-only, missing path is `false`,
otherwise test the resolved node's local error list only. -/
def hasErrorAt (n : ErrorNode) (p : List Char) : Bool :=
  match traverseTo n p with
  | none => false
  | some cur => decide ((cur.errs.getD []).length ≠ 0)

/-- The error-list matching step of Go `ErrorNode.IsEqual`: the unvisited
list starts as the reverse of `o`'s errors (they are pushed to the front
one by one), and for each of the receiver's errors the inner scan removes
*every* still-unvisited entry it equals — the loop has no `break`.  The
lists pass when nothing is left unvisited. -/
def unVisitedAfter (nErrs oErrs : List VErr) : List VErr :=
  nErrs.foldl (fun acc e => acc.filter (fun x => !vErrIsEqual e x)) oErrs.reverse

theorem fLookup_sizeOf : ∀ (m : FieldMap) (k : List Char) (w : ErrorNode),
    fLookup m k = some w → sizeOf w < sizeOf m
  | FieldMap.fnil, k, w => by
    intro h
    simp [fLookup] at h
  | FieldMap.fcons key v rest, k, w => by
    intro h
    unfold fLookup at h
    split at h
    · cases h
      simp
      omega
    · have := fLookup_sizeOf rest k w h
      simp
      omega

theorem iLookup_sizeOf : ∀ (m : IndexMap) (k : Int) (w : ErrorNode),
    iLookup m k = some w → sizeOf w < sizeOf m
  | IndexMap.inil, k, w => by
    intro h
    simp [iLookup] at h
  | IndexMap.icons key v rest, k, w => by
    intro h
    unfold iLookup at h
    split at h
    · cases h
      simp
      omega
    · have := iLookup_sizeOf rest k w h
      simp
      omega

mutual
/-- Go `ErrorNode.IsEqual`.  `some b` is the Go return value; `none` models
the nil-pointer dereference panic that a missing `nn[i]`/`oo[i]` (sparse
numbered map) or a named key absent on the other side triggers when the
code calls `IsEqual` on the nil map value. -/
def nodeIsEqual (n o : ErrorNode) : Option Bool :=
  match n, o with
  | ErrorNode.mk nNamed nNum nErrs, ErrorNode.mk oNamed oNum oErrs =>
    if (nErrs.isSome && oErrs.isNone) || (nErrs.isNone && oErrs.isSome) then
      some false
    else if nErrs.isSome && decide ((nErrs.getD []).length ≠ (oErrs.getD []).length) then
      some false
    else if nErrs.isSome &&
        decide ((unVisitedAfter (nErrs.getD []) (oErrs.getD [])).length ≠ 0) then
      some false
    else
      match numCheck nNum oNum with
      | none => none
      | some false => some false
      | some true => namedCheck nNamed oNamed
termination_by (sizeOf n, 0)
decreasing_by
  all_goals
    apply Prod.Lex.left
    simp
    try omega

/-- The numbered-children block of `IsEqual`: exactly one nil map is
unequal, two nil maps pass, two maps must have equal length and are then
compared at the dense indices `0 .. len-1`. -/
def numCheck (a : Option IndexMap) (b : Option IndexMap) : Option Bool :=
  match a, b with
  | some _, none => some false
  | none, some _ => some false
  | none, none => some true
  | some nn, some oo =>
    if decide (iLen nn ≠ iLen oo) then some false
    else numLoop nn oo 0 (iLen nn)
termination_by (sizeOf a, 1)
decreasing_by
  all_goals
    apply Prod.Lex.left
    simp
    try omega

/-- The `for i := 0; i < len(nn); i++ { nn[i].IsEqual(oo[i]) }` loop; the
last argument counts the remaining iterations. -/
def numLoop (nn oo : IndexMap) (i : Nat) (remaining : Nat) : Option Bool :=
  match remaining with
  | 0 => some true
  | rem + 1 =>
    match h1 : iLookup nn (Int.ofNat i), h2 : iLookup oo (Int.ofNat i) with
    | some a, some b =>
      match nodeIsEqual a b with
      | some true => numLoop nn oo (i + 1) rem
      | some false => some false
      | none => none
    | _, _ => none
termination_by (sizeOf nn, remaining)
decreasing_by
  all_goals
    first
      | (apply Prod.Lex.right
         omega)
      | (apply Prod.Lex.left
         have ha := iLookup_sizeOf _ _ _ h1
         omega)

/-- The named-children block of `IsEqual`: exactly one nil map is unequal,
two nil maps pass, two maps must have equal length and then every key of
the receiver's map must resolve to an equal child in the other map. -/
def namedCheck (a : Option FieldMap) (b : Option FieldMap) : Option Bool :=
  match a, b with
  | some _, none => some false
  | none, some _ => some false
  | none, none => some true
  | some nn, some oo =>
    if decide (fLen nn ≠ fLen oo) then some false
    else namedLoop nn oo
termination_by (sizeOf a, 1)
decreasing_by
  all_goals
    apply Prod.Lex.left
    simp
    try omega

/-- The `for i := range nn { nn[i].IsEqual(oo[i]) }` loop over the
receiver's named children. -/
def namedLoop (nn oo : FieldMap) : Option Bool :=
  match nn with
  | FieldMap.fnil => some true
  | FieldMap.fcons k v rest =>
    match h : fLookup oo k with
    | some w =>
      match nodeIsEqual v w with
      | some true => namedLoop rest oo
      | some false => some false
      | none => none
    | none => none
termination_by (sizeOf nn, 0)
decreasing_by
  all_goals
    apply Prod.Lex.left
    simp
    try omega
end

/-! ## Claim theorems about `ErrorNode` -/

/-- C1: the claim requires a one-to-one multiset matching of local error
lists, with `[X, X, Y]` not equal to `[X, Y, Y]`.  The inner scan of
`ErrorNode.IsEqual` has no `break`, so one receiver error removes every
equal unvisited entry: on `[X, X, Y]` vs `[X, Y, Y]` the single `X` is
consumed by the first receiver `X`, the second receiver `X` consumes
nothing, the receiver `Y` consumes both `Y`s, nothing is left unvisited and
the nodes compare equal — the code returns `true` where the claim demands
`false`.  The same slip even equates `[X, Y]` with `[X, X]`, although `Y`
occurs nowhere on the other side, contradicting the function's own
documentation ("the same errors").  The third conjunct confirms the two
error values are genuinely distinct under the error contract. -/
theorem c1_isequal_consumes_duplicates :
    nodeIsEqual
      (ErrorNode.mk none none
        (some [VErr.simple ['x'], VErr.simple ['x'], VErr.simple ['y']]))
      (ErrorNode.mk none none
        (some [VErr.simple ['x'], VErr.simple ['y'], VErr.simple ['y']])) = some true ∧
    nodeIsEqual
      (ErrorNode.mk none none (some [VErr.simple ['x'], VErr.simple ['y']]))
      (ErrorNode.mk none none (some [VErr.simple ['x'], VErr.simple ['x']])) = some true ∧
    vErrIsEqual (VErr.simple ['x']) (VErr.simple ['y']) = false := by
  refine ⟨?_, ?_, by decide⟩
  · rw [nodeIsEqual]
    simp only [numCheck, namedCheck]
    decide
  · rw [nodeIsEqual]
    simp only [numCheck, namedCheck]
    decide

/-- The single navigation step of `traverseTo` for one component. -/
def childAt (m : ErrorNode) : Comp → Option ErrorNode
  | Comp.fld k => lookupField m.named k
  | Comp.idx j => lookupIndex m.numbered j

theorem navComps_append (xs : List Comp) : ∀ (n : ErrorNode) (ys : List Comp),
    navComps n (xs ++ ys) = (navComps n xs).bind (fun m => navComps m ys) := by
  induction xs with
  | nil => intro n ys; rfl
  | cons c rest ih =>
    intro n ys
    cases c with
    | fld k =>
      cases h : lookupField n.named k with
      | none => simp [navComps, h]
      | some m => simp [navComps, h, ih m ys]
    | idx j =>
      cases h : lookupIndex n.numbered j with
      | none => simp [navComps, h]
      | some m => simp [navComps, h, ih m ys]

/-- C7: `HasErrorAt` resolves the path by the pure, read-only component
navigation of `traverseTo` (the embedding returns no modified tree: the
function is observationally read-only by construction).  A path whose
navigation fails — in particular as soon as any single component has no
corresponding child — yields `false` rather than an error, and a resolved
path answers exactly from the resolved node's own local error list, the
children being ignored. -/
theorem c7_has_error_at :
    (∀ (n : ErrorNode) (p : List Char),
      traverseTo n p = none → hasErrorAt n p = false) ∧
    (∀ (n : ErrorNode) (p : List Char) (c : ErrorNode),
      traverseTo n p = some c →
      hasErrorAt n p = decide ((c.errs.getD []).length ≠ 0)) ∧
    (∀ (n m : ErrorNode) (p : List Char) (cs1 : List Comp) (c : Comp)
      (cs2 : List Comp),
      components p = cs1 ++ c :: cs2 → navComps n cs1 = some m →
      childAt m c = none → hasErrorAt n p = false) := by
  refine ⟨?_, ?_, ?_⟩
  · intro n p h
    unfold hasErrorAt
    rw [h]
  · intro n p c h
    unfold hasErrorAt
    rw [h]
  · intro n m p cs1 c cs2 hcomp hnav hmiss
    have htrav : traverseTo n p = none := by
      unfold traverseTo
      rw [hcomp, navComps_append, hnav]
      show navComps m (c :: cs2) = none
      cases c with
      | fld k =>
        have hmiss2 : lookupField m.named k = none := hmiss
        unfold navComps
        rw [hmiss2]
      | idx j =>
        have hmiss2 : lookupIndex m.numbered j = none := hmiss
        unfold navComps
        rw [hmiss2]
    unfold hasErrorAt
    rw [htrav]

/-- A two-node tree with one error at `/u`, used only to witness C7. -/
def c7Tree : ErrorNode :=
  ErrorNode.mk
    (some (FieldMap.fcons ['u']
      (ErrorNode.mk none none (some [VErr.simple ['x']])) FieldMap.fnil))
    none none

theorem c7_witness :
    hasErrorAt c7Tree (downFieldRaw newPath ['u']) = true ∧
    hasErrorAt c7Tree (downFieldRaw newPath ['m']) = false ∧
    hasErrorAt c7Tree (downFieldRaw (downFieldRaw newPath ['m']) ['x']) = false := by
  refine ⟨?_, ?_, ?_⟩
  · have h := c7_has_error_at.2.1 c7Tree (downFieldRaw newPath ['u'])
      (ErrorNode.mk none none (some [VErr.simple ['x']])) rfl
    rw [h]
    decide
  · exact c7_has_error_at.1 c7Tree (downFieldRaw newPath ['m']) rfl
  · exact c7_has_error_at.2.2 c7Tree c7Tree
      (downFieldRaw (downFieldRaw newPath ['m']) ['x'])
      [] (Comp.fld ['m']) [Comp.fld ['x']] (by decide) rfl rfl

/-- C8: `DownField(name)` aborts (returns `none`, the model of the panic)
exactly when the name contains a separator or a bracket character; every
other name — the empty string included — yields the appended path (the
receiver itself is never changed: the embedding is a pure function of it,
matching the Go code, which only formats a new string).  The appended
segment is recoverable: on an absolute receiver the new path's `FieldName`
is the name that was appended. -/
theorem c8_down_field_validation :
    (∀ p n : List Char, downField p n = none ↔
      (n.any fun c => c = '[' || c = ']' || c = sepChar) = true) ∧
    (∀ p n : List Char, isValidFieldName n = true →
      downField p n = some (downFieldRaw p n)) ∧
    (∀ p n : List Char, isAbsolute p = true → isValidFieldName n = true →
      fieldName (downFieldRaw p n) = n) ∧
    downField newPath [] = some newPath := by
  refine ⟨?_, ?_, ?_, by decide⟩
  · intro p n
    unfold downField
    by_cases hval : isValidFieldName n = true
    · rw [if_pos hval]
      unfold isValidFieldName at hval
      rw [Bool.not_eq_true'] at hval
      simp [hval]
    · rw [if_neg hval]
      unfold isValidFieldName at hval
      rw [Bool.not_eq_true, Bool.not_eq_false'] at hval
      simp [hval]
  · intro p n hval
    unfold downField
    rw [if_pos hval]
  · intro p n habs hval
    exact fieldName_downFieldRaw habs hval

theorem c8_witness :
    downField newPath ['a', '['] = none ∧
    downField (downFieldRaw newPath ['a']) ['b'] =
      some (downFieldRaw (downFieldRaw newPath ['a']) ['b']) ∧
    fieldName (downFieldRaw newPath ['z']) = ['z'] :=
  ⟨(c8_down_field_validation.1 newPath ['a', '[']).mpr (by decide),
    c8_down_field_validation.2.1 (downFieldRaw newPath ['a']) ['b'] (by decide),
    c8_down_field_validation.2.2.1 newPath ['z'] (by decide) (by decide)⟩

/-! ## The assertion-layer state `Is` (src/unnamed/part_003) -/

/-- The fields of Go `issers.Is`: the current-path cursor, the lazily
created error-tree root (`none` models the nil pointer), and the running
error counter. -/
structure IsState where
  currentPath : List Char
  errorsRoot : Option ErrorNode
  errorsCount : Int

/-- Go `issers.NewRoot()`: cursor at the root path, no tree, zero count. -/
def newRootState : IsState :=
  { currentPath := newPath, errorsRoot := none, errorsCount := 0 }

/-- How a callback (and hence a whole operation) exits: normally, or with a
propagating panic.  Both carry the state of the `Is` value at the moment of
exit — the state a deferred restore then operates on. -/
inductive Outcome where
  | ok (s : IsState)
  | panicked (s : IsState)

/-- The state carried by an outcome. -/
def Outcome.state : Outcome → IsState
  | Outcome.ok s => s
  | Outcome.panicked s => s

/-- Did the operation exit normally? -/
def Outcome.isOk : Outcome → Bool
  | Outcome.ok _ => true
  | Outcome.panicked _ => false

/-- Overwrite the cursor in whichever way the callback exited — the
deferred `i.currentPath = originalPath` of Go `Is.With`, which runs on
normal return and during panic unwinding alike. -/
def Outcome.setPath : Outcome → List Char → Outcome
  | Outcome.ok s, pth => Outcome.ok { s with currentPath := pth }
  | Outcome.panicked s, pth => Outcome.panicked { s with currentPath := pth }

theorem setPath_state_currentPath (o : Outcome) (pth : List Char) :
    (o.setPath pth).state.currentPath = pth := by
  cases o <;> rfl

theorem setPath_state_errorsRoot (o : Outcome) (pth : List Char) :
    (o.setPath pth).state.errorsRoot = o.state.errorsRoot := by
  cases o <;> rfl

theorem setPath_state_errorsCount (o : Outcome) (pth : List Char) :
    (o.setPath pth).state.errorsCount = o.state.errorsCount := by
  cases o <;> rfl

theorem setPath_isOk (o : Outcome) (pth : List Char) :
    (o.setPath pth).isOk = o.isOk := by
  cases o <;> rfl

/-- Go `Is.With`: remember the cursor, run the callback (an arbitrary
transformer of the same `Is` value), restore the cursor on every exit
path. -/
def isWith (i : IsState) (wrap : IsState → Outcome) : Outcome :=
  (wrap i).setPath i.currentPath

/-- Go `Is.WithField`: `With` around `cursor := cursor.DownField(name);
wrap(i)`.  An invalid name makes `DownField` panic before the cursor
assignment, so the callback never runs and the state is unchanged when the
deferred restore fires. -/
def isWithField (i : IsState) (n : List Char) (wrap : IsState → Outcome) : Outcome :=
  isWith i (fun s =>
    if isValidFieldName n then
      wrap { s with currentPath := downFieldRaw s.currentPath n }
    else Outcome.panicked s)

/-- Go `Is.WithIndex`: `With` around `cursor := cursor.DownIndex(i);
wrap(i)`. -/
def isWithIndex (i : IsState) (j : Int) (wrap : IsState → Outcome) : Outcome :=
  isWith i (fun s => wrap { s with currentPath := downIndex s.currentPath j })

/-! ## Claim theorem C9 -/

/-- C9: `With`, `WithField` and `WithIndex` restore the cursor to its exact
pre-call value on every exit path, normal or panicking; inside the callback
the cursor is the prior cursor with `DownField(name)` (resp.
`DownIndex(i)`) applied — the equations below exhibit the callback invoked
precisely at that state; an invalid field name panics with the state
untouched; and the restoration itself touches no other field of `Is` (the
error root, the counter and the exit kind of the callback's outcome all
pass through unchanged). -/
theorem c9_with_restores_cursor :
    (∀ (i : IsState) (wrap : IsState → Outcome),
      (isWith i wrap).state.currentPath = i.currentPath ∧
      (isWith i wrap).state.errorsRoot = (wrap i).state.errorsRoot ∧
      (isWith i wrap).state.errorsCount = (wrap i).state.errorsCount ∧
      (isWith i wrap).isOk = (wrap i).isOk) ∧
    (∀ (i : IsState) (n : List Char) (wrap : IsState → Outcome),
      isValidFieldName n = true →
      isWithField i n wrap =
        (wrap { i with currentPath := downFieldRaw i.currentPath n }).setPath
          i.currentPath) ∧
    (∀ (i : IsState) (n : List Char) (wrap : IsState → Outcome),
      isValidFieldName n = false →
      isWithField i n wrap = Outcome.panicked i) ∧
    (∀ (i : IsState) (j : Int) (wrap : IsState → Outcome),
      isWithIndex i j wrap =
        (wrap { i with currentPath := downIndex i.currentPath j }).setPath
          i.currentPath) ∧
    (∀ (i : IsState) (n : List Char) (wrap : IsState → Outcome),
      (isWithField i n wrap).state.currentPath = i.currentPath) ∧
    (∀ (i : IsState) (j : Int) (wrap : IsState → Outcome),
      (isWithIndex i j wrap).state.currentPath = i.currentPath) ∧
    (∀ (o : Outcome) (pth : List Char),
      (o.setPath pth).state.errorsRoot = o.state.errorsRoot ∧
      (o.setPath pth).state.errorsCount = o.state.errorsCount ∧
      (o.setPath pth).isOk = o.isOk) := by
  refine ⟨?_, ?_, ?_, ?_, ?_, ?_, ?_⟩
  · intro i wrap
    exact ⟨setPath_state_currentPath _ _, setPath_state_errorsRoot _ _,
      setPath_state_errorsCount _ _, setPath_isOk _ _⟩
  · intro i n wrap hval
    unfold isWithField isWith
    simp only [hval, if_true]
  · intro i n wrap hval
    unfold isWithField isWith
    simp only [hval, Bool.false_eq_true, if_false]
    rfl
  · intro i j wrap
    rfl
  · intro i n wrap
    unfold isWithField isWith
    exact setPath_state_currentPath _ _
  · intro i j wrap
    unfold isWithIndex isWith
    exact setPath_state_currentPath _ _
  · intro o pth
    exact ⟨setPath_state_errorsRoot _ _, setPath_state_errorsCount _ _,
      setPath_isOk _ _⟩

theorem c9_witness :
    (isWithField newRootState ['a']
      (fun s => Outcome.ok { s with errorsCount := 5 })).state.currentPath =
      newRootState.currentPath ∧
    isWithField newRootState ['[']
      (fun s => Outcome.ok { s with errorsCount := 5 }) =
      Outcome.panicked newRootState ∧
    (isWithIndex newRootState 3
      (fun s => Outcome.panicked { s with errorsCount := 7 })).state.currentPath =
      newRootState.currentPath :=
  ⟨c9_with_restores_cursor.2.2.2.2.1 newRootState ['a']
      (fun s => Outcome.ok { s with errorsCount := 5 }),
    c9_with_restores_cursor.2.2.1 newRootState ['[']
      (fun s => Outcome.ok { s with errorsCount := 5 }) (by decide),
    c9_with_restores_cursor.2.2.2.2.2.1 newRootState 3
      (fun s => Outcome.panicked { s with errorsCount := 7 })⟩

/-! ## The error-recording write path (Go `Is.currentErrorNode` + `Add`) -/

/-- The child Go `ErrorNode.DownField` hands back: the existing one, or a
fresh empty node on first use (the map itself is also created lazily, which
the `Option` models). -/
def writeChildF (m : Option FieldMap) (k : List Char) : ErrorNode :=
  (lookupField m k).getD newErrorNode

/-- The child Go `ErrorNode.DownIndex` hands back. -/
def writeChildI (m : Option IndexMap) (k : Int) : ErrorNode :=
  (lookupIndex m k).getD newErrorNode

/-- The functional image of the pointer update `m[k] = child`: replace the
binding at `k` or append a new one. -/
def fStore : FieldMap → List Char → ErrorNode → FieldMap
  | FieldMap.fnil, k, v => FieldMap.fcons k v FieldMap.fnil
  | FieldMap.fcons k2 v2 rest, k, v =>
    if k2 = k then FieldMap.fcons k2 v rest
    else FieldMap.fcons k2 v2 (fStore rest k v)

/-- The functional image of `m[index] = child`. -/
def iStore : IndexMap → Int → ErrorNode → IndexMap
  | IndexMap.inil, k, v => IndexMap.icons k v IndexMap.inil
  | IndexMap.icons k2 v2 rest, k, v =>
    if k2 = k then IndexMap.icons k2 v rest
    else IndexMap.icons k2 v2 (iStore rest k v)

/-- Store a named child on a node, materialising the map on first use. -/
def setFieldChild : ErrorNode → List Char → ErrorNode → ErrorNode
  | ErrorNode.mk named num errs, k, c =>
    ErrorNode.mk (some (fStore (named.getD FieldMap.fnil) k c)) num errs

/-- Store a numbered child on a node, materialising the map on first use. -/
def setIndexChild : ErrorNode → Int → ErrorNode → ErrorNode
  | ErrorNode.mk named num errs, j, c =>
    ErrorNode.mk named (some (iStore (num.getD IndexMap.inil) j c)) errs

/-- The write-path resolution of Go `Is.currentErrorNode` followed by
`Add`: walk the cursor's components, creating every missing node (and map)
along the way, and append the error at the final node.  The Go code mutates
through pointers; functionally the spine is rebuilt. -/
def addAtComps : ErrorNode → List Comp → VErr → ErrorNode
  | n, [], e => addErr n e
  | n, Comp.fld k :: rest, e =>
    setFieldChild n k (addAtComps (writeChildF n.named k) rest e)
  | n, Comp.idx j :: rest, e =>
    setIndexChild n j (addAtComps (writeChildI n.numbered j) rest e)

/-- Go `Is.Invalid`: increment the counter, resolve the current path on the
write path from the lazily materialised root, and append the error. -/
def applyInvalid (s : IsState) (e : VErr) : IsState :=
  { currentPath := s.currentPath,
    errorsRoot := some (addAtComps (s.errorsRoot.getD newErrorNode)
      (components s.currentPath) e),
    errorsCount := s.errorsCount + 1 }

/-- Go `Is.Len`. -/
def isLen (s : IsState) : Int := s.errorsCount

/-- Go `Is.HasErrors`: answered from the counter alone. -/
def isHasErrors (s : IsState) : Bool := decide (s.errorsCount ≠ 0)

/-- Go `msgOrDefault`: a nil callback (or one returning nil) falls back to
the default error. -/
def msgOrDefault (m : Option VErr) (d : VErr) : VErr := m.getD d

/-- `ShouldBeTrueErr`. -/
def shouldBeTrueErr : VErr := VErr.simple ("should be true".data)

/-- `ShouldBeFalseErr`. -/
def shouldBeFalseErr : VErr := VErr.simple ("should be false".data)

/-- `ShouldBePresentErr`. -/
def shouldBePresentErr : VErr := VErr.simple ("should be present".data)

/-- `shouldBeIntBetweenMsg`. -/
def intBetweenFmt : List Char := "should be between %d and %d".data

/-- `shouldBeIntGreaterThanMsg`. -/
def intGreaterThanFmt : List Char := "should be greater than %d".data

/-- `shouldBeIntLessThanMsg`. -/
def intLessThanFmt : List Char := "should be less than %d".data

/-- `shouldBeIntGreaterThanOrEqualMsg`. -/
def intGreaterThanOrEqualFmt : List Char := "should be greater than or equal to %d".data

/-- `shouldBeIntLessThanOrEqualMsg`. -/
def intLessThanOrEqualFmt : List Char := "should be less than or equal to %d".data

/-! ## Sequences of `Is` operations -/

mutual
/-- One operation on an `Is` value: `Invalid` itself, the assertions that
funnel into it (each carrying an optional custom message, `none` for a nil
callback), and the two scoping combinators with their nested bodies.
`required` carries the operations its caller guards with
`if is.Required(...) { ... }`, the documented usage pattern. -/
inductive Op where
  | invalid (e : VErr)
  | assertTrue (value : Bool) (msg : Option VErr)
  | assertFalse (value : Bool) (msg : Option VErr)
  | required (isPresent : Bool) (thenOps : Ops)
  | intBetween (value low high : Int) (msg : Option VErr)
  | intGreaterThan (value low : Int) (msg : Option VErr)
  | intLessThan (value high : Int) (msg : Option VErr)
  | intGreaterThanOrEqual (value low : Int) (msg : Option VErr)
  | intLessThanOrEqual (value high : Int) (msg : Option VErr)
  | stringLengthBetween (value : List Char) (low high : Int) (msg : Option VErr)
  | withField (n : List Char) (body : Ops)
  | withIndex (i : Int) (body : Ops)
/-- A sequence of operations. -/
inductive Ops where
  | onil
  | ocons (op : Op) (rest : Ops)
end

/-- Go `Is.True`: record the (defaulted) error exactly when the value is
false.  The returned `Nat` counts the `Invalid` calls performed — the
instrumentation the claim is stated against. -/
def runTrue (s : IsState) (value : Bool) (msg : Option VErr) (d : VErr) :
    Outcome × Nat :=
  if value then (Outcome.ok s, 0)
  else (Outcome.ok (applyInvalid s (msgOrDefault msg d)), 1)

mutual
/-- Run one operation, returning the outcome and the number of `Invalid`
calls it performed.  Each branch transcribes the corresponding Go method;
`Outcome.panicked` models the `panic` on an inverted range or an invalid
field name, which propagates and prevents the remaining operations from
running. -/
def runOp : Op → IsState → Outcome × Nat
  | Op.invalid e, s => (Outcome.ok (applyInvalid s e), 1)
  | Op.assertTrue v msg, s => runTrue s v msg shouldBeTrueErr
  | Op.assertFalse v msg, s => runTrue s (!v) msg shouldBeFalseErr
  | Op.required b body, s =>
    if b then runOps body s
    else runTrue s false (some shouldBePresentErr) shouldBeTrueErr
  | Op.intBetween v lo hi msg, s =>
    if lo > hi then (Outcome.panicked s, 0)
    else runTrue s (decide (lo ≤ v) && decide (v ≤ hi)) msg
      (VErr.shouldBe intBetweenFmt [lo, hi])
  | Op.intGreaterThan v lo msg, s =>
    runTrue s (decide (lo < v)) msg (VErr.shouldBe intGreaterThanFmt [lo])
  | Op.intLessThan v hi msg, s =>
    runTrue s (decide (v < hi)) msg (VErr.shouldBe intLessThanFmt [hi])
  | Op.intGreaterThanOrEqual v lo msg, s =>
    runTrue s (decide (lo ≤ v)) msg (VErr.shouldBe intGreaterThanOrEqualFmt [lo])
  | Op.intLessThanOrEqual v hi msg, s =>
    runTrue s (decide (v ≤ hi)) msg (VErr.shouldBe intLessThanOrEqualFmt [hi])
  | Op.stringLengthBetween str lo hi msg, s =>
    if lo > hi then (Outcome.panicked s, 0)
    else runTrue s (decide (lo ≤ (str.length : Int)) && decide ((str.length : Int) ≤ hi))
      msg (VErr.shouldBe (("length ".data) ++ intBetweenFmt) [lo, hi])
  | Op.withField n body, s =>
    if isValidFieldName n then
      ((runOps body { s with currentPath := downFieldRaw s.currentPath n }).1.setPath
          s.currentPath,
        (runOps body { s with currentPath := downFieldRaw s.currentPath n }).2)
    else (Outcome.panicked s, 0)
  | Op.withIndex j body, s =>
    ((runOps body { s with currentPath := downIndex s.currentPath j }).1.setPath
        s.currentPath,
      (runOps body { s with currentPath := downIndex s.currentPath j }).2)

/-- Run a sequence: a panic aborts the remaining operations. -/
def runOps : Ops → IsState → Outcome × Nat
  | Ops.onil, s => (Outcome.ok s, 0)
  | Ops.ocons op rest, s =>
    match runOp op s with
    | (Outcome.ok s2, k) => ((runOps rest s2).1, k + (runOps rest s2).2)
    | (Outcome.panicked s2, k) => (Outcome.panicked s2, k)
end

/-! ## The total number of errors stored in a tree -/

mutual
/-- The number of error values stored across all nodes of a tree. -/
def treeTotal : ErrorNode → Nat
  | ErrorNode.mk named num errs =>
    (errs.getD []).length +
    (match named with
      | some m => fTotal m
      | none => 0) +
    (match num with
      | some m => iTotal m
      | none => 0)

/-- Total over a named-children map. -/
def fTotal : FieldMap → Nat
  | FieldMap.fnil => 0
  | FieldMap.fcons _ c rest => treeTotal c + fTotal rest

/-- Total over a numbered-children map. -/
def iTotal : IndexMap → Nat
  | IndexMap.inil => 0
  | IndexMap.icons _ c rest => treeTotal c + iTotal rest
end

theorem treeTotal_newErrorNode : treeTotal newErrorNode = 0 := rfl

theorem fTotal_fStore : ∀ (m : FieldMap) (k : List Char) (v : ErrorNode),
    fTotal (fStore m k v) + treeTotal ((fLookup m k).getD newErrorNode) =
      fTotal m + treeTotal v
  | FieldMap.fnil, k, v => by
    simp [fStore, fLookup, fTotal, treeTotal_newErrorNode]
  | FieldMap.fcons k2 v2 rest, k, v => by
    by_cases h : k2 = k
    · simp [fStore, fLookup, h, fTotal]
      omega
    · have ih := fTotal_fStore rest k v
      simp [fStore, fLookup, h, fTotal]
      omega

theorem iTotal_iStore : ∀ (m : IndexMap) (k : Int) (v : ErrorNode),
    iTotal (iStore m k v) + treeTotal ((iLookup m k).getD newErrorNode) =
      iTotal m + treeTotal v
  | IndexMap.inil, k, v => by
    simp [iStore, iLookup, iTotal, treeTotal_newErrorNode]
  | IndexMap.icons k2 v2 rest, k, v => by
    by_cases h : k2 = k
    · simp [iStore, iLookup, h, iTotal]
      omega
    · have ih := iTotal_iStore rest k v
      simp [iStore, iLookup, h, iTotal]
      omega

theorem lookupField_getD_fnil (named : Option FieldMap) (k : List Char) :
    lookupField named k = fLookup (named.getD FieldMap.fnil) k := by
  cases named with
  | none => rfl
  | some m => rfl

theorem lookupIndex_getD_inil (num : Option IndexMap) (k : Int) :
    lookupIndex num k = iLookup (num.getD IndexMap.inil) k := by
  cases num with
  | none => rfl
  | some m => rfl

theorem fTotal_getD (named : Option FieldMap) :
    (match named with | some m => fTotal m | none => 0) =
      fTotal (named.getD FieldMap.fnil) := by
  cases named with
  | none => rfl
  | some m => rfl

theorem iTotal_getD (num : Option IndexMap) :
    (match num with | some m => iTotal m | none => 0) =
      iTotal (num.getD IndexMap.inil) := by
  cases num with
  | none => rfl
  | some m => rfl

theorem treeTotal_mk (named : Option FieldMap) (num : Option IndexMap)
    (errs : Option (List VErr)) :
    treeTotal (ErrorNode.mk named num errs) =
      (errs.getD []).length + fTotal (named.getD FieldMap.fnil) +
        iTotal (num.getD IndexMap.inil) := by
  unfold treeTotal
  rw [fTotal_getD, iTotal_getD]

/-- Every error write adds exactly one stored error to the tree, whatever
nodes the descent had to create. -/
theorem treeTotal_addAtComps : ∀ (cs : List Comp) (n : ErrorNode) (e : VErr),
    treeTotal (addAtComps n cs e) = treeTotal n + 1 := by
  intro cs
  induction cs with
  | nil =>
    intro n e
    cases n with
    | mk named num errs =>
      show treeTotal (addErr (ErrorNode.mk named num errs) e) = _
      unfold addErr
      rw [treeTotal_mk, treeTotal_mk]
      simp
      omega

  | cons c rest ih =>
    intro n e
    cases c with
    | fld k =>
      cases n with
      | mk named num errs =>
        show treeTotal (setFieldChild (ErrorNode.mk named num errs) k
          (addAtComps (writeChildF named k) rest e)) = _
        have hstep := fTotal_fStore (named.getD FieldMap.fnil) k
          (addAtComps (writeChildF named k) rest e)
        have hih := ih (writeChildF named k) e
        have hchild : writeChildF named k =
            (fLookup (named.getD FieldMap.fnil) k).getD newErrorNode := by
          unfold writeChildF
          rw [lookupField_getD_fnil]
        rw [← hchild] at hstep
        have hset : treeTotal (setFieldChild (ErrorNode.mk named num errs) k
            (addAtComps (writeChildF named k) rest e)) =
            (errs.getD []).length +
              fTotal (fStore (named.getD FieldMap.fnil) k
                (addAtComps (writeChildF named k) rest e)) +
              iTotal (num.getD IndexMap.inil) := by
          show treeTotal (ErrorNode.mk (some (fStore (named.getD FieldMap.fnil) k
            (addAtComps (writeChildF named k) rest e))) num errs) = _
          rw [treeTotal_mk]
          rfl
        rw [hset, treeTotal_mk]
        omega
    | idx j =>
      cases n with
      | mk named num errs =>
        show treeTotal (setIndexChild (ErrorNode.mk named num errs) j
          (addAtComps (writeChildI num j) rest e)) = _
        have hstep := iTotal_iStore (num.getD IndexMap.inil) j
          (addAtComps (writeChildI num j) rest e)
        have hih := ih (writeChildI num j) e
        have hchild : writeChildI num j =
            (iLookup (num.getD IndexMap.inil) j).getD newErrorNode := by
          unfold writeChildI
          rw [lookupIndex_getD_inil]
        rw [← hchild] at hstep
        have hset : treeTotal (setIndexChild (ErrorNode.mk named num errs) j
            (addAtComps (writeChildI num j) rest e)) =
            (errs.getD []).length + fTotal (named.getD FieldMap.fnil) +
              iTotal (iStore (num.getD IndexMap.inil) j
                (addAtComps (writeChildI num j) rest e)) := by
          show treeTotal (ErrorNode.mk named (some (iStore (num.getD IndexMap.inil) j
            (addAtComps (writeChildI num j) rest e))) errs) = _
          rw [treeTotal_mk]
          rfl
        rw [hset, treeTotal_mk]
        omega

mutual
/-- `HasErrors`' recursive walk agrees with the stored-error total. -/
theorem nodeHasErrors_iff : ∀ n : ErrorNode, nodeHasErrors n = true ↔ treeTotal n ≠ 0
  | ErrorNode.mk named num errs => by
    unfold nodeHasErrors
    rw [treeTotal_mk]
    cases errs <;> cases named <;> cases num <;>
      simp [fMapHasErrors_iff, iMapHasErrors_iff, fTotal, iTotal, Option.getD] <;>
      tauto

theorem fMapHasErrors_iff : ∀ m : FieldMap, fMapHasErrors m = true ↔ fTotal m ≠ 0
  | FieldMap.fnil => by simp [fMapHasErrors, fTotal]
  | FieldMap.fcons k c rest => by
    have h1 := nodeHasErrors_iff c
    have h2 := fMapHasErrors_iff rest
    simp only [fMapHasErrors, fTotal, Bool.or_eq_true, h1, h2]
    omega

theorem iMapHasErrors_iff : ∀ m : IndexMap, iMapHasErrors m = true ↔ iTotal m ≠ 0
  | IndexMap.inil => by simp [iMapHasErrors, iTotal]
  | IndexMap.icons k c rest => by
    have h1 := nodeHasErrors_iff c
    have h2 := iMapHasErrors_iff rest
    simp only [iMapHasErrors, iTotal, Bool.or_eq_true, h1, h2]
    omega
end

/-- The number of errors stored in the (possibly not yet materialised)
tree of an `Is` value. -/
def rootTotal (s : IsState) : Nat :=
  treeTotal (s.errorsRoot.getD newErrorNode)

theorem applyInvalid_inv (s : IsState) (e : VErr) :
    (applyInvalid s e).errorsCount = s.errorsCount + 1 ∧
    rootTotal (applyInvalid s e) = rootTotal s + 1 := by
  constructor
  · rfl
  · show treeTotal (addAtComps (s.errorsRoot.getD newErrorNode)
      (components s.currentPath) e) = _
    exact treeTotal_addAtComps _ _ _

theorem runTrue_inv (s : IsState) (v : Bool) (msg : Option VErr) (d : VErr) :
    (runTrue s v msg d).1.state.errorsCount =
      s.errorsCount + ((runTrue s v msg d).2 : Int) ∧
    rootTotal (runTrue s v msg d).1.state = rootTotal s + (runTrue s v msg d).2 := by
  unfold runTrue
  cases v
  · simp only [Bool.false_eq_true, if_false, Outcome.state]
    refine ⟨?_, ?_⟩
    · rw [(applyInvalid_inv s _).1]
      simp
    · rw [(applyInvalid_inv s _).2]
  · simp [Outcome.state]

mutual
/-- Each operation raises the error counter and the stored-error total by
exactly the number of `Invalid` calls it performed, whether it exits
normally or by panic. -/
theorem runOp_inv : ∀ (op : Op) (s : IsState),
    (runOp op s).1.state.errorsCount = s.errorsCount + ((runOp op s).2 : Int) ∧
    rootTotal (runOp op s).1.state = rootTotal s + (runOp op s).2
  | Op.invalid e, s => by
    refine ⟨?_, ?_⟩
    · show (applyInvalid s e).errorsCount = s.errorsCount + ((1 : Nat) : Int)
      rw [(applyInvalid_inv s e).1]
      simp
    · show rootTotal (applyInvalid s e) = rootTotal s + 1
      exact (applyInvalid_inv s e).2
  | Op.assertTrue v msg, s => runTrue_inv s v msg shouldBeTrueErr
  | Op.assertFalse v msg, s => runTrue_inv s (!v) msg shouldBeFalseErr
  | Op.required b body, s => by
    cases b
    · simpa [runOp] using
        runTrue_inv s false (some shouldBePresentErr) shouldBeTrueErr
    · simpa [runOp] using runOps_inv body s
  | Op.intBetween v lo hi msg, s => by
    unfold runOp
    split
    · exact ⟨by simp [Outcome.state], by simp [Outcome.state]⟩
    · exact runTrue_inv s _ msg _
  | Op.intGreaterThan v lo msg, s => runTrue_inv s _ msg _
  | Op.intLessThan v hi msg, s => runTrue_inv s _ msg _
  | Op.intGreaterThanOrEqual v lo msg, s => runTrue_inv s _ msg _
  | Op.intLessThanOrEqual v hi msg, s => runTrue_inv s _ msg _
  | Op.stringLengthBetween str lo hi msg, s => by
    unfold runOp
    split
    · exact ⟨by simp [Outcome.state], by simp [Outcome.state]⟩
    · exact runTrue_inv s _ msg _
  | Op.withField n body, s => by
    unfold runOp
    split
    · have h := runOps_inv body { s with currentPath := downFieldRaw s.currentPath n }
      refine ⟨?_, ?_⟩
      · show ((runOps body _).1.setPath s.currentPath).state.errorsCount = _
        rw [setPath_state_errorsCount]
        exact h.1
      · show rootTotal ((runOps body _).1.setPath s.currentPath).state = _
        unfold rootTotal
        rw [setPath_state_errorsRoot]
        exact h.2
    · exact ⟨by simp [Outcome.state], by simp [Outcome.state]⟩
  | Op.withIndex j body, s => by
    have h := runOps_inv body { s with currentPath := downIndex s.currentPath j }
    refine ⟨?_, ?_⟩
    · show ((runOps body _).1.setPath s.currentPath).state.errorsCount = _
      rw [setPath_state_errorsCount]
      exact h.1
    · show rootTotal ((runOps body _).1.setPath s.currentPath).state = _
      unfold rootTotal
      rw [setPath_state_errorsRoot]
      exact h.2

theorem runOps_inv : ∀ (ops : Ops) (s : IsState),
    (runOps ops s).1.state.errorsCount = s.errorsCount + ((runOps ops s).2 : Int) ∧
    rootTotal (runOps ops s).1.state = rootTotal s + (runOps ops s).2
  | Ops.onil, s => ⟨by simp [runOps, Outcome.state], by simp [runOps, Outcome.state]⟩
  | Ops.ocons op rest, s => by
    have h1 := runOp_inv op s
    cases hrun : runOp op s with
    | mk out k =>
      rw [hrun] at h1
      cases out with
      | ok s2 =>
        have h2 := runOps_inv rest s2
        have hstep : runOps (Ops.ocons op rest) s =
            ((runOps rest s2).1, k + (runOps rest s2).2) := by
          simp only [runOps, hrun]
        rw [hstep]
        refine ⟨?_, ?_⟩
        · show (runOps rest s2).1.state.errorsCount = _
          rw [h2.1]
          have hc : s2.errorsCount = s.errorsCount + (k : Int) := h1.1
          rw [hc]
          push_cast
          ring
        · show rootTotal (runOps rest s2).1.state = _
          rw [h2.2]
          have hc : rootTotal s2 = rootTotal s + k := h1.2
          rw [hc]
          omega
      | panicked s2 =>
        have hstep : runOps (Ops.ocons op rest) s = (Outcome.panicked s2, k) := by
          simp only [runOps, hrun]
        rw [hstep]
        exact h1
end

/-! ## Claim theorem C10 -/

/-- C10: running any sequence of operations from `NewRoot()`, the value of
`Len()` equals the number of `Invalid` calls performed (directly or through
a failed `True`/`False`/`Required`/range/string-length assertion), which
also equals the total number of error values stored across all nodes of the
error tree — nodes created on demand included; `HasErrors()` answers
`count ≠ 0` straight from the maintained counter, and that answer agrees
with what `ErrorNode.HasErrors`' full recursive walk of the tree reports. -/
theorem c10_len_invariant :
    ∀ ops : Ops,
      isLen (runOps ops newRootState).1.state = ((runOps ops newRootState).2 : Int) ∧
      treeTotal ((runOps ops newRootState).1.state.errorsRoot.getD newErrorNode) =
        (runOps ops newRootState).2 ∧
      (isHasErrors (runOps ops newRootState).1.state = true ↔
        (runOps ops newRootState).2 ≠ 0) ∧
      isHasErrors (runOps ops newRootState).1.state =
        nodeHasErrors ((runOps ops newRootState).1.state.errorsRoot.getD newErrorNode) := by
  intro ops
  have h := runOps_inv ops newRootState
  have h1 : (runOps ops newRootState).1.state.errorsCount =
      ((runOps ops newRootState).2 : Int) := by
    rw [h.1]
    show (0 : Int) + _ = _
    ring
  have h2 : rootTotal (runOps ops newRootState).1.state = (runOps ops newRootState).2 := by
    rw [h.2]
    show treeTotal ((none : Option ErrorNode).getD newErrorNode) + _ = _
    rw [show ((none : Option ErrorNode).getD newErrorNode) = newErrorNode from rfl,
      treeTotal_newErrorNode]
    omega
  have h3 : isHasErrors (runOps ops newRootState).1.state = true ↔
      (runOps ops newRootState).2 ≠ 0 := by
    unfold isHasErrors
    rw [h1]
    simp
  refine ⟨h1, h2, h3, ?_⟩
  have h4 := nodeHasErrors_iff
    ((runOps ops newRootState).1.state.errorsRoot.getD newErrorNode)
  have h5 : nodeHasErrors
      ((runOps ops newRootState).1.state.errorsRoot.getD newErrorNode) = true ↔
      (runOps ops newRootState).2 ≠ 0 := by
    rw [h4]
    unfold rootTotal at h2
    rw [h2]
  cases hl : isHasErrors (runOps ops newRootState).1.state with
  | true =>
    have := h3.mp hl
    exact (h5.mpr this).symm
  | false =>
    cases hr : nodeHasErrors
        ((runOps ops newRootState).1.state.errorsRoot.getD newErrorNode) with
    | true =>
      have := h5.mp hr
      rw [h3.mpr this] at hl
      exact absurd hl (by simp)
    | false => rfl

theorem c10_witness :
    isLen (runOps (Ops.ocons (Op.assertTrue false none)
      (Ops.ocons (Op.withField ['a'] (Ops.ocons (Op.invalid shouldBeTrueErr) Ops.onil))
        Ops.onil)) newRootState).1.state = 2 ∧
    isHasErrors (runOps (Ops.ocons (Op.assertTrue false none)
      (Ops.ocons (Op.withField ['a'] (Ops.ocons (Op.invalid shouldBeTrueErr) Ops.onil))
        Ops.onil)) newRootState).1.state = true := by
  constructor
  · rw [(c10_len_invariant (Ops.ocons (Op.assertTrue false none)
      (Ops.ocons (Op.withField ['a'] (Ops.ocons (Op.invalid shouldBeTrueErr) Ops.onil))
        Ops.onil))).1]
    decide
  · exact (c10_len_invariant (Ops.ocons (Op.assertTrue false none)
      (Ops.ocons (Op.withField ['a'] (Ops.ocons (Op.invalid shouldBeTrueErr) Ops.onil))
        Ops.onil))).2.2.1.mpr (by decide)

end Validates
